import Mathlib

/-!
# A shallow embedding of `main.go` (a small local version-control tool)

The program is a command-line tool; every invocation runs `main` once on the
file system it finds.  The embedding therefore models

* Go strings and byte slices as lists of characters (one character per byte),
* the part of the operating system the program talks to (a tree of
  directories and regular files, the working directory, pathname resolution,
  the `os` calls the program makes and the two error kinds it distinguishes),
* the library functions `filepath.Clean`, `filepath.Join`, `strings.Split`
  and `crypto/md5` (RFC 1321),
* and every function of `main.go`, as a function from the file system before
  the call to the file system after it, the lines printed on standard output
  and whether the process ended in `log.Fatal`.

Permissions, symbolic links and I/O faults are not part of the model.
-/

namespace VCS

set_option maxRecDepth 100000

/-! ## Strings -/

/-- Go `string` and `[]byte`: a sequence of bytes, one character per byte. -/
abbrev Str := List Char

instance : Coe String Str := ⟨String.toList⟩

/-- Go `strings.Split(s, string(sep))` for a one-byte separator: the pieces of
`s` between occurrences of `sep`; always at least one piece. -/
def stringsSplit (sep : Char) : Str → List Str
  | [] => [[]]
  | c :: cs =>
    if c = sep then [] :: stringsSplit sep cs
    else
      match stringsSplit sep cs with
      | [] => [[c]]
      | l :: ls => (c :: l) :: ls

/-- Go `strings.Join(elems, string(sep))`. -/
def stringsJoin (sep : Char) : List Str → Str
  | [] => []
  | [a] => a
  | a :: b :: rest => a ++ sep :: stringsJoin sep (b :: rest)

/-! ## MD5 (RFC 1321), as computed by Go's `crypto/md5` -/

/-- Per-round left-rotation amounts. -/
def md5S : List Nat :=
  [7, 12, 17, 22, 7, 12, 17, 22, 7, 12, 17, 22, 7, 12, 17, 22,
   5, 9, 14, 20, 5, 9, 14, 20, 5, 9, 14, 20, 5, 9, 14, 20,
   4, 11, 16, 23, 4, 11, 16, 23, 4, 11, 16, 23, 4, 11, 16, 23,
   6, 10, 15, 21, 6, 10, 15, 21, 6, 10, 15, 21, 6, 10, 15, 21]

/-- Per-round additive constants. -/
def md5K : List Nat :=
  [0xd76aa478, 0xe8c7b756, 0x242070db, 0xc1bdceee, 0xf57c0faf, 0x4787c62a, 0xa8304613, 0xfd469501,
   0x698098d8, 0x8b44f7af, 0xffff5bb1, 0x895cd7be, 0x6b901122, 0xfd987193, 0xa679438e, 0x49b40821,
   0xf61e2562, 0xc040b340, 0x265e5a51, 0xe9b6c7aa, 0xd62f105d, 0x02441453, 0xd8a1e681, 0xe7d3fbc8,
   0x21e1cde6, 0xc33707d6, 0xf4d50d87, 0x455a14ed, 0xa9e3e905, 0xfcefa3f8, 0x676f02d9, 0x8d2a4c8a,
   0xfffa3942, 0x8771f681, 0x6d9d6122, 0xfde5380c, 0xa4beea44, 0x4bdecfa9, 0xf6bb4b60, 0xbebfbc70,
   0x289b7ec6, 0xeaa127fa, 0xd4ef3085, 0x04881d05, 0xd9d4d039, 0xe6db99e5, 0x1fa27cf8, 0xc4ac5665,
   0xf4292244, 0x432aff97, 0xab9423a7, 0xfc93a039, 0x655b59c3, 0x8f0ccc92, 0xffeff47d, 0x85845dd1,
   0x6fa87e4f, 0xfe2ce6e0, 0xa3014314, 0x4e0811a1, 0xf7537e82, 0xbd3af235, 0x2ad7d2bb, 0xeb86d391]

/-- The modulus of 32-bit words. -/
def w32 : Nat := 4294967296

/-- Rotate a 32-bit word left by `n` bits. -/
def rotl32 (x n : Nat) : Nat := ((x <<< n) ||| (x >>> (32 - n))) % w32

/-- Bitwise complement of a 32-bit word. -/
def not32 (x : Nat) : Nat := (w32 - 1) - x % w32

/-- The little-endian 32-bit word made of the first four bytes of `bs`. -/
def leWord (bs : List Nat) : Nat :=
  bs.getD 0 0 + 256 * bs.getD 1 0 + 65536 * bs.getD 2 0 + 16777216 * bs.getD 3 0

/-- The `k` low bytes of `n`, least significant first. -/
def leBytes (n k : Nat) : List Nat :=
  (List.range k).map (fun i => (n >>> (8 * i)) % 256)

/-- Message padding: a one bit, zeros up to 56 modulo 64, the bit length. -/
def md5Pad (msg : List Nat) : List Nat :=
  let l := msg.length
  let z := (55 + 64 - l % 64) % 64
  msg ++ [128] ++ List.replicate z 0 ++ leBytes ((8 * l) % 2 ^ 64) 8

/-- The four chaining words of MD5. -/
structure MD5State where
  a : Nat
  b : Nat
  c : Nat
  d : Nat
deriving DecidableEq, Repr

/-- One of the 64 operations on a block with message words `m`. -/
def md5Round (m : List Nat) (s : MD5State) (i : Nat) : MD5State :=
  let f :=
    if i < 16 then (s.b &&& s.c) ||| (not32 s.b &&& s.d)
    else if i < 32 then (s.d &&& s.b) ||| (not32 s.d &&& s.c)
    else if i < 48 then s.b ^^^ s.c ^^^ s.d
    else s.c ^^^ (s.b ||| not32 s.d)
  let g :=
    if i < 16 then i
    else if i < 32 then (5 * i + 1) % 16
    else if i < 48 then (3 * i + 5) % 16
    else (7 * i) % 16
  let f1 := (f + s.a + md5K.getD i 0 + m.getD g 0) % w32
  MD5State.mk s.d ((s.b + rotl32 f1 (md5S.getD i 0)) % w32) s.b s.c

/-- Processing of one 64-byte block. -/
def md5Block (s : MD5State) (block : List Nat) : MD5State :=
  let m := (List.range 16).map (fun j => leWord (block.drop (4 * j)))
  let t := (List.range 64).foldl (md5Round m) s
  MD5State.mk ((s.a + t.a) % w32) ((s.b + t.b) % w32) ((s.c + t.c) % w32) ((s.d + t.d) % w32)

/-- Processing of the first `n` 64-byte blocks of `bs`. -/
def md5Blocks : Nat → MD5State → List Nat → MD5State
  | 0, s, _ => s
  | n + 1, s, bs => md5Blocks n (md5Block s (bs.take 64)) (bs.drop 64)

/-- Initial chaining value. -/
def md5Init : MD5State := MD5State.mk 0x67452301 0xefcdab89 0x98badcfe 0x10325476

/-- The 16-byte MD5 digest of a byte sequence (`h.Sum(nil)` after the bytes
were written to `h := md5.New()`). -/
def md5Sum (msg : List Nat) : List Nat :=
  let p := md5Pad msg
  let s := md5Blocks (p.length / 64) md5Init p
  leBytes s.a 4 ++ leBytes s.b 4 ++ leBytes s.c 4 ++ leBytes s.d 4

/-- A lower-case hexadecimal digit. -/
def hexDigit (n : Nat) : Char :=
  match n with
  | 0 => '0' | 1 => '1' | 2 => '2' | 3 => '3' | 4 => '4' | 5 => '5' | 6 => '6' | 7 => '7'
  | 8 => '8' | 9 => '9' | 10 => 'a' | 11 => 'b' | 12 => 'c' | 13 => 'd' | 14 => 'e' | _ => 'f'

/-- Go `fmt.Sprintf("%x", bs)` for a byte slice: two digits per byte. -/
def hexString : List Nat → Str
  | [] => []
  | b :: bs => hexDigit (b / 16 % 16) :: hexDigit (b % 16) :: hexString bs

/-- The value of a byte of a Go string. -/
def byteVal (c : Char) : Nat := c.toNat % 256

/-- The text `fmt.Sprintf("%x", h.Sum(nil))` after the bytes `s` were written
to `h := md5.New()`. -/
def md5Hex (s : Str) : Str := hexString (md5Sum (s.map byteVal))

/-! ## Pathnames: `path/filepath` on a Unix system -/

/-- The element stack of `filepath.Clean`: `.` and empty elements vanish, `..`
removes the preceding real element, is dropped at the root and is kept at the
start of a relative path. -/
def cleanComps (rooted : Bool) : List Str → List Str → List Str
  | stack, [] => stack.reverse
  | stack, c :: cs =>
    if c = [] ∨ c = ['.'] then cleanComps rooted stack cs
    else if c = ['.', '.'] then
      match stack with
      | top :: rest =>
        if top = ['.', '.'] then cleanComps rooted (c :: stack) cs
        else cleanComps rooted rest cs
      | [] => if rooted then cleanComps rooted [] cs else cleanComps rooted [c] cs
    else cleanComps rooted (c :: stack) cs

/-- Go `filepath.Clean`. -/
def filepathClean (p : Str) : Str :=
  let rooted := decide (p.head? = some '/')
  let body := stringsJoin '/' (cleanComps rooted [] (stringsSplit '/' p))
  if rooted then '/' :: body else if body = [] then ['.'] else body

/-- Go `filepath.Join`: the elements from the first non-empty one on, joined
by slashes and cleaned; the empty string when every element is empty. -/
def filepathJoin : List Str → Str
  | [] => []
  | e :: es => if e = [] then filepathJoin es else filepathClean (stringsJoin '/' (e :: es))

/-! ## The file system -/

/-- The errors of the operating system that the model produces. -/
inductive Errno where
  | ENOENT
  | ENOTDIR
  | EISDIR
deriving DecidableEq, Repr

/-- Go `os.IsNotExist(err)` for a non-nil error. -/
def osIsNotExist (e : Errno) : Bool := decide (e = Errno.ENOENT)

/-- The result of a system call. -/
inductive Res (α : Type) where
  | ok (a : α)
  | err (e : Errno)
deriving DecidableEq, Repr

/-- A file-system object: a regular file with its bytes, or a directory. -/
inductive Node where
  | file (content : Str)
  | dir
deriving DecidableEq, Repr

/-- An absolute, resolved location: the names from the root down. -/
abbrev Path := List Str

/-- The first binding of `p` in an association list. -/
def lookupNode (p : Path) : List (Path × Node) → Option Node
  | [] => none
  | (q, n) :: rest => if q = p then some n else lookupNode p rest

/-- The state of the machine the tool runs on: the working directory of the
process and the objects of the file system (the first binding of a location
is the current one; the root is a directory). -/
structure FS where
  cwd : Path
  nodes : List (Path × Node)
deriving DecidableEq, Repr

/-- The object at a location, if any. -/
def FS.get (fs : FS) (p : Path) : Option Node :=
  if p = [] then some Node.dir else lookupNode p fs.nodes

/-- Bind a location to an object. -/
def FS.set (fs : FS) (p : Path) (n : Node) : FS := FS.mk fs.cwd ((p, n) :: fs.nodes)

/-- A name a directory entry can have. -/
def validName (n : Str) : Prop := n ≠ [] ∧ n ≠ ['.'] ∧ n ≠ ['.', '.'] ∧ '/' ∉ n

instance (n : Str) : Decidable (validName n) := by unfold validName; infer_instance

/-- One step of pathname resolution: from the directory `cur` through the
pathname component `c`. -/
def FS.step (fs : FS) (cur : Path) (c : Str) : Res Path :=
  match fs.get cur with
  | none => Res.err Errno.ENOENT
  | some (Node.file _) => Res.err Errno.ENOTDIR
  | some Node.dir =>
    if c = [] ∨ c = ['.'] then Res.ok cur
    else if c = ['.', '.'] then Res.ok cur.dropLast
    else
      match fs.get (cur ++ [c]) with
      | none => Res.err Errno.ENOENT
      | some _ => Res.ok (cur ++ [c])

/-- Resolution of a list of pathname components from `cur`. -/
def FS.walk (fs : FS) : Path → List Str → Res Path
  | cur, [] => Res.ok cur
  | cur, c :: cs =>
    match fs.step cur c with
    | Res.err e => Res.err e
    | Res.ok nxt => fs.walk nxt cs

/-- Where resolution of the pathname `p` starts. -/
def FS.start (fs : FS) (p : Str) : Path := if p.head? = some '/' then [] else fs.cwd

/-- Resolution of a pathname to the location of an existing object. -/
def FS.resolve (fs : FS) (p : Str) : Res Path :=
  if p = [] then Res.err Errno.ENOENT else fs.walk (fs.start p) (stringsSplit '/' p)

/-- The location a new file gets in the directory `parent` under the name `c`;
the name of a directory cannot be taken. -/
def FS.newEntry (fs : FS) (parent : Path) (c : Str) : Res Path :=
  match fs.get parent with
  | none => Res.err Errno.ENOENT
  | some (Node.file _) => Res.err Errno.ENOTDIR
  | some Node.dir =>
    if c = [] ∨ c = ['.'] ∨ c = ['.', '.'] then Res.err Errno.EISDIR
    else
      match fs.get (parent ++ [c]) with
      | some Node.dir => Res.err Errno.EISDIR
      | _ => Res.ok (parent ++ [c])

/-- Resolution of a pathname that is opened with `O_CREATE`: the directory
part must exist, the last component may be new but cannot be a directory. -/
def FS.resolveCreate (fs : FS) (p : Str) : Res Path :=
  if p = [] then Res.err Errno.ENOENT
  else
    match fs.walk (fs.start p) (stringsSplit '/' p).dropLast with
    | Res.err e => Res.err e
    | Res.ok parent => fs.newEntry parent ((stringsSplit '/' p).getLast?.getD [])

/-- Go `os.Stat`. -/
def osStat (p : Str) (fs : FS) : Res Node :=
  match fs.resolve p with
  | Res.err e => Res.err e
  | Res.ok q =>
    match fs.get q with
    | none => Res.err Errno.ENOENT
    | some n => Res.ok n

/-- Go `os.Open`: the location of the opened object (a directory can be
opened, it cannot be read). -/
def osOpen (p : Str) (fs : FS) : Res Path := fs.resolve p

/-- Reading an opened object to its end (`io.Copy` from it). -/
def readAll (q : Path) (fs : FS) : Res Str :=
  match fs.get q with
  | some (Node.file c) => Res.ok c
  | some Node.dir => Res.err Errno.EISDIR
  | none => Res.err Errno.ENOENT

/-- Go `os.ReadFile`. -/
def osReadFile (p : Str) (fs : FS) : Res Str :=
  match osOpen p fs with
  | Res.err e => Res.err e
  | Res.ok q => readAll q fs

/-- Go `os.Create`: the file is created or truncated; the result is the new
state and the location of the file. -/
def osCreate (p : Str) (fs : FS) : Res (FS × Path) :=
  match fs.resolveCreate p with
  | Res.err e => Res.err e
  | Res.ok q => Res.ok (fs.set q (Node.file []), q)

/-- Go `os.WriteFile`: create or truncate, then write. -/
def osWriteFile (p : Str) (data : Str) (fs : FS) : Res FS :=
  match fs.resolveCreate p with
  | Res.err e => Res.err e
  | Res.ok q => Res.ok (fs.set q (Node.file data))

/-- Go `os.OpenFile(p, os.O_APPEND|os.O_CREATE|os.O_WRONLY, 0644)` followed by
one `Write` of `data`. -/
def osAppendFile (p : Str) (data : Str) (fs : FS) : Res FS :=
  match fs.resolveCreate p with
  | Res.err e => Res.err e
  | Res.ok q =>
    match fs.get q with
    | some (Node.file c) => Res.ok (fs.set q (Node.file (c ++ data)))
    | _ => Res.ok (fs.set q (Node.file data))

/-- Unbind a location. -/
def FS.remove (fs : FS) (p : Path) : FS :=
  FS.mk fs.cwd (fs.nodes.filter (fun e => decide (e.1 ≠ p)))

/-- The system call `unlink`: the regular file at a pathname is deleted (the
tool never deletes a file; a user can). -/
def osUnlink (p : Str) (fs : FS) : Res FS :=
  match fs.resolve p with
  | Res.err e => Res.err e
  | Res.ok q =>
    match fs.get q with
    | none => Res.err Errno.ENOENT
    | some Node.dir => Res.err Errno.EISDIR
    | some (Node.file _) => Res.ok (fs.remove q)

/-- The directory walk of `os.MkdirAll`: missing directories are created on
the way; what was created stays when a later component fails. -/
def mkdirWalk : List Str → Path → FS → FS × Option Errno
  | [], _, fs => (fs, none)
  | c :: cs, cur, fs =>
    match fs.get cur with
    | none => (fs, some Errno.ENOENT)
    | some (Node.file _) => (fs, some Errno.ENOTDIR)
    | some Node.dir =>
      if c = [] ∨ c = ['.'] then mkdirWalk cs cur fs
      else if c = ['.', '.'] then mkdirWalk cs cur.dropLast fs
      else
        match fs.get (cur ++ [c]) with
        | none => mkdirWalk cs (cur ++ [c]) (fs.set (cur ++ [c]) Node.dir)
        | some Node.dir => mkdirWalk cs (cur ++ [c]) fs
        | some (Node.file _) => (fs, some Errno.ENOTDIR)

/-- Go `os.MkdirAll`. -/
def osMkdirAll (p : Str) (fs : FS) : FS × Option Errno :=
  if p = [] then (fs, some Errno.ENOENT) else mkdirWalk (stringsSplit '/' p) (fs.start p) fs

/-- The name under which `q` is an entry of the directory `d`, if it is one. -/
def entryName (d : Path) (q : Path) : Option Str :=
  match q.getLast? with
  | none => none
  | some n => if q.dropLast = d ∧ validName n then some n else none

/-- Go `os.ReadDir`: the names of the entries of a directory, sorted. -/
def osReadDir (p : Str) (fs : FS) : Res (List Str) :=
  match fs.resolve p with
  | Res.err e => Res.err e
  | Res.ok d =>
    match fs.get d with
    | none => Res.err Errno.ENOENT
    | some (Node.file _) => Res.err Errno.ENOTDIR
    | some Node.dir =>
      Res.ok (List.insertionSort (fun a b : Str => a ≤ b)
        ((fs.nodes.filterMap (fun e => entryName d e.1)).dedup))

/-! ## The program -/

/-- What one run of a function of the program leaves behind: the file system,
the lines written to standard output, and whether the process was ended by
`log.Fatal`. -/
structure Result where
  fs : FS
  out : List Str
  fatal : Bool
deriving DecidableEq, Repr

/-- The constant `helpCmd`. -/
def helpCmd : Str := "--help"

/-- The constant `vcsDir`. -/
def vcsDir : Str := "./vcs"

/-- The constant `commitsDir`. -/
def commitsDir : Str := "./vcs/commits"

/-- The function `getUserName`: `none` when it ends the process. -/
def getUserName (fs : FS) : Option Str :=
  let filename := filepathJoin [vcsDir, "config.txt"]
  match osReadFile filename fs with
  | Res.err e => if osIsNotExist e then some [] else none
  | Res.ok name => if name.length = 0 then some [] else some name

/-- The function `listTrackedFiles`: `none` when it ends the process. -/
def listTrackedFiles (fs : FS) : Option (List Str) :=
  let filename := filepathJoin [vcsDir, "index.txt"]
  match osReadFile filename fs with
  | Res.err e => if osIsNotExist e then some [] else none
  | Res.ok content =>
    let list := stringsSplit '\n' content
    if list.length = 0 then some list else some (list.take (list.length - 1))

/-- The function `listLogs`: `none` when it ends the process. -/
def listLogs (fs : FS) : Option (List Str) :=
  let filename := filepathJoin [vcsDir, "log.txt"]
  match osReadFile filename fs with
  | Res.err e => if osIsNotExist e then some [] else none
  | Res.ok content =>
    let list := stringsSplit '\n' content
    if list.length = 0 then some list else some (list.take (list.length - 1))

/-- The function `isFileVersioned`: `none` when it ends the process. -/
def isFileVersioned (file : Str) (fs : FS) : Option Bool :=
  match listTrackedFiles fs with
  | none => none
  | some lines => some (lines.any (fun line => decide (line = file)))

/-- The function `fileHash`: `none` when it ends the process. -/
def fileHash (file : Str) (fs : FS) : Option Str :=
  match osOpen file fs with
  | Res.err _ => none
  | Res.ok f =>
    match readAll f fs with
    | Res.err _ => none
    | Res.ok content => some (md5Hex content)

/-- The loop of `trackedFilesHash`: the content of the builder `hashes` after
the file hashes of `files` were written to it. -/
def hashesString (fs : FS) : List Str → Option Str
  | [] => some []
  | f :: rest =>
    match fileHash f fs with
    | none => none
    | some h =>
      match hashesString fs rest with
      | none => none
      | some t => some (h ++ t)

/-- The function `trackedFilesHash`: `none` when it ends the process. -/
def trackedFilesHash (fs : FS) : Option Str :=
  match listTrackedFiles fs with
  | none => none
  | some files =>
    if files.length = 0 then some []
    else
      match hashesString fs files with
      | none => none
      | some hashes => some (md5Hex hashes)

/-- The function `copyFile`: the state after the call and the error it
returns, if any. -/
def copyFile (destinationFile sourceFile : Str) (fs : FS) : FS × Option Errno :=
  match osOpen sourceFile fs with
  | Res.err e => (fs, some e)
  | Res.ok source =>
    match osCreate destinationFile fs with
    | Res.err e => (fs, some e)
    | Res.ok (fs1, destination) =>
      match readAll source fs1 with
      | Res.err e => (fs1, some e)
      | Res.ok content => (fs1.set destination (Node.file content), none)

/-- The function `writeLog`. -/
def writeLog (hash message : Str) (fs : FS) : Result :=
  match getUserName fs with
  | none => Result.mk fs [] true
  | some name =>
    if name.length = 0 then Result.mk fs ["Please, tell me who you are."] false
    else
      let filename := filepathJoin [vcsDir, "log.txt"]
      let record := message ++ "\nAuthor: " ++ name ++ "\ncommit " ++ hash ++ "\n\n"
      match osAppendFile filename record fs with
      | Res.err _ => Result.mk fs [] true
      | Res.ok fs1 => Result.mk fs1 [] false

/-- The function `configHandler` (`args` is `os.Args`). -/
def configHandler (args : List Str) (fs : FS) : Result :=
  let filename := filepathJoin [vcsDir, "config.txt"]
  if args.length > 2 then
    let fs1 :=
      match osWriteFile filename (args.getD 2 []) fs with
      | Res.err _ => fs
      | Res.ok fs1 => fs1
    Result.mk fs1 ["The username is " ++ args.getD 2 [] ++ "."] false
  else
    match getUserName fs with
    | none => Result.mk fs [] true
    | some name =>
      if name.length = 0 then Result.mk fs ["Please, tell me who you are."] false
      else Result.mk fs ["The username is " ++ name ++ "."] false

/-- The function `addHandler` (`args` is `os.Args`). -/
def addHandler (args : List Str) (fs : FS) : Result :=
  let filename := filepathJoin [vcsDir, "index.txt"]
  if args.length > 2 then
    let trackedFile := filepathJoin [".", args.getD 2 []]
    match osStat trackedFile fs with
    | Res.err e =>
      if osIsNotExist e then Result.mk fs ["Can't find '" ++ args.getD 2 [] ++ "'."] false
      else Result.mk fs [] true
    | Res.ok _ =>
      match isFileVersioned (args.getD 2 []) fs with
      | none => Result.mk fs [] true
      | some true => Result.mk fs [] false
      | some false =>
        match osAppendFile filename (args.getD 2 [] ++ "\n") fs with
        | Res.err _ => Result.mk fs [] true
        | Res.ok fs1 => Result.mk fs1 ["The file '" ++ args.getD 2 [] ++ "' is tracked."] false
  else
    match listTrackedFiles fs with
    | none => Result.mk fs [] true
    | some trackedFiles =>
      if trackedFiles.length = 0 then Result.mk fs ["Add a file to the index."] false
      else Result.mk fs (("Tracked files:" : Str) :: trackedFiles) false

/-- The function `logHandler`. -/
def logHandler (fs : FS) : Result :=
  match listLogs fs with
  | none => Result.mk fs [] true
  | some logRecords =>
    if logRecords.length = 0 then Result.mk fs ["No commits yet."] false
    else Result.mk fs logRecords.reverse false

/-- The copy loop of `commitHandler`: every tracked file is copied into the
commit directory; the flag tells that a copy failed (`log.Fatalln`). -/
def copyTracked (commitDir : Str) : List Str → FS → FS × Bool
  | [], fs => (fs, false)
  | file :: rest, fs =>
    match copyFile (filepathJoin [commitDir, file]) file fs with
    | (fs1, some _) => (fs1, true)
    | (fs1, none) => copyTracked commitDir rest fs1

/-- The function `commitHandler` (`args` is `os.Args`). -/
def commitHandler (args : List Str) (fs : FS) : Result :=
  if args.length > 2 then
    match trackedFilesHash fs with
    | none => Result.mk fs [] true
    | some hash =>
      if hash = [] then Result.mk fs ["Nothing to commit."] false
      else
        let commitDir := filepathJoin [commitsDir, hash]
        match osStat commitDir fs with
        | Res.err e =>
          if osIsNotExist e then
            match osMkdirAll commitDir fs with
            | (fs1, some _) => Result.mk fs1 [] true
            | (fs1, none) =>
              match listTrackedFiles fs1 with
              | none => Result.mk fs1 [] true
              | some files =>
                match copyTracked commitDir files fs1 with
                | (fs2, true) => Result.mk fs2 [] true
                | (fs2, false) =>
                  let r := writeLog hash (args.getD 2 []) fs2
                  if r.fatal then r
                  else Result.mk r.fs (r.out ++ [("Changes are committed." : Str)]) false
          else Result.mk fs [] true
        | Res.ok _ => Result.mk fs ["Nothing to commit."] false
  else Result.mk fs ["Message was not passed."] false

/-- The copy loop of `checkoutHandler`: every entry of the commit directory is
copied to the working directory under its name; errors are ignored. -/
def restoreFiles (commitDir : Str) (files : List Str) (fs : FS) : FS :=
  files.foldl (fun s name => (copyFile name (filepathJoin [commitDir, name]) s).1) fs

/-- The function `checkoutHandler` (`args` is `os.Args`). -/
def checkoutHandler (args : List Str) (fs : FS) : Result :=
  if args.length > 2 then
    let commitDir := filepathJoin [commitsDir, args.getD 2 []]
    match osStat commitDir fs with
    | Res.err e =>
      if osIsNotExist e then Result.mk fs ["Commit does not exist."] false
      else Result.mk fs [] true
    | Res.ok _ =>
      match osReadDir commitDir fs with
      | Res.err _ => Result.mk fs [] true
      | Res.ok files =>
        Result.mk (restoreFiles commitDir files fs)
          ["Switched to commit " ++ args.getD 2 [] ++ "."] false
  else Result.mk fs ["Commit id was not passed."] false

/-- Go `fmt.Sprintf("%-10s", s)`: `s` padded with spaces on the right. -/
def padRight10 (s : Str) : Str := s ++ List.replicate (10 - s.length) ' '

/-- The function `helpHandler`, over the command table of `main`. -/
def helpHandler (fs : FS) : Result :=
  Result.mk fs
    [("These are SVCS commands:" : Str),
     padRight10 "config" ++ " " ++ "Get and set a username.",
     padRight10 "add" ++ " " ++ "Add a file to the index.",
     padRight10 "log" ++ " " ++ "Show commit logs.",
     padRight10 "commit" ++ " " ++ "Save changes.",
     padRight10 "checkout" ++ " " ++ "Restore a file."] false

/-- The function `getCommand`: the handler of the named command. -/
def getCommand (name : Str) (args : List Str) (fs : FS) : Result :=
  if name = "--help" then helpHandler fs
  else if name = "config" then configHandler args fs
  else if name = "add" then addHandler args fs
  else if name = "log" then logHandler fs
  else if name = "commit" then commitHandler args fs
  else if name = "checkout" then checkoutHandler args fs
  else Result.mk fs ["'" ++ name ++ "' is not a SVCS command."] false

/-- The function `main` (`args` is `os.Args`). -/
def main (args : List Str) (fs : FS) : Result :=
  match osMkdirAll vcsDir fs with
  | (fs1, some _) => Result.mk fs1 [] true
  | (fs1, none) =>
    match osMkdirAll commitsDir fs1 with
    | (fs2, some _) => Result.mk fs2 [] true
    | (fs2, none) =>
      let cmd := if args.length > 1 then args.getD 1 [] else helpCmd
      getCommand cmd args fs2


/-! ## Notions used in the statements -/

/-- The name of the directory `vcs`. -/
def vcsName : Str := "vcs"

/-- The name of the directory `commits`. -/
def commitsName : Str := "commits"

/-- The name of the index file. -/
def indexName : Str := "index.txt"

/-- The name of the log file. -/
def logName : Str := "log.txt"

/-- The name of the configuration file. -/
def configName : Str := "config.txt"

/-- The name `.` of a directory in itself. -/
def dotName : Str := "."

/-- What `main` has made sure of before it calls a handler: the working
directory exists and `./vcs` and `./vcs/commits` are directories. -/
def Bootstrapped (fs : FS) : Prop :=
  fs.get fs.cwd = some Node.dir ∧ fs.get (fs.cwd ++ [vcsName]) = some Node.dir ∧
    fs.get (fs.cwd ++ [vcsName, commitsName]) = some Node.dir

instance (fs : FS) : Decidable (Bootstrapped fs) := by unfold Bootstrapped; infer_instance

/-- The index file, when there is one, is a sequence of lines, each ended by
a line feed (what `addHandler` writes). -/
def IndexWellFormed (fs : FS) : Prop :=
  match osReadFile (filepathJoin [vcsDir, "index.txt"]) fs with
  | Res.ok content => content = [] ∨ content.getLast? = some '\n'
  | Res.err _ => True

instance (fs : FS) : Decidable (IndexWellFormed fs) := by
  unfold IndexWellFormed; split <;> infer_instance


/-- The bytes of the regular file at a location; empty when there is none. -/
def FS.content (fs : FS) (q : Path) : Str :=
  match fs.get q with
  | some (Node.file c) => c
  | _ => []

/-- The location of the log file. -/
abbrev logPath (fs : FS) : Path := fs.cwd ++ [vcsName, logName]

/-- The location of the index file. -/
abbrev indexPath (fs : FS) : Path := fs.cwd ++ [vcsName, indexName]

/-- The location of the configuration file. -/
abbrev configPath (fs : FS) : Path := fs.cwd ++ [vcsName, configName]

/-- The location of the commit directory of a fingerprint. -/
abbrev snapPath (fs : FS) (h : Str) : Path := fs.cwd ++ [vcsName, commitsName, h]

/-- The state is bootstrapped and holds the commit directory of `h`. -/
def SnapDirs (fs : FS) (h : Str) : Prop :=
  Bootstrapped fs ∧ fs.get (snapPath fs h) = some Node.dir

/-- A later modification of a working copy, made outside the tool: the file at
a path is overwritten with new bytes (`os.WriteFile`), or it is deleted. -/
inductive Edit where
  | write (path : Str) (data : Str)
  | delete (path : Str)
deriving DecidableEq, Repr

/-- The path an edit is made to. -/
def Edit.target : Edit → Str
  | Edit.write path _ => path
  | Edit.delete path => path

/-- The state after an edit; an edit that fails changes nothing. -/
def modifyFile (fs : FS) : Edit → FS
  | Edit.write path data =>
    match osWriteFile path data fs with
    | Res.ok fs1 => fs1
    | Res.err _ => fs
  | Edit.delete path =>
    match osUnlink path fs with
    | Res.ok fs1 => fs1
    | Res.err _ => fs

/-- The state after a sequence of edits. -/
def modifyFiles (fs : FS) (mods : List Edit) : FS := mods.foldl modifyFile fs

/-- The state `s` holds the commit directory of `h`, with a copy of the bytes
each of `files` has in the working directory of the state `orig`, and none of
`files` names a directory of the working directory of `s`. -/
def Snapshotted (orig s : FS) (h : Str) (files : List Str) : Prop :=
  s.cwd = orig.cwd ∧ SnapDirs s h ∧
  ∀ p ∈ files, ∃ c, orig.get (orig.cwd ++ [p]) = some (Node.file c) ∧
    s.get (snapPath s h ++ [p]) = some (Node.file c) ∧ s.get (s.cwd ++ [p]) ≠ some Node.dir

/-- The fields of a log record. -/
structure LogRecord where
  hash : Str
  message : Str
  author : Str
deriving DecidableEq, Repr

/-- The text of a record in the log file. -/
def recordText (r : LogRecord) : Str :=
  r.message ++ "\nAuthor: " ++ r.author ++ "\ncommit " ++ r.hash ++ "\n\n"

/-- A working directory `/w` holding `a.txt` with content `hello`, after the
bootstrap of `main`; nothing is tracked, no username is configured. -/
def exampleFs : FS :=
  FS.mk ["w"]
    [(["w", "vcs", "commits"], Node.dir), (["w", "vcs"], Node.dir), (["w"], Node.dir),
     (["w", "a.txt"], Node.file "hello")]

/-- A working directory `/w` holding a file whose name `a<LF>b` contains a line
feed, after the bootstrap of `main`. -/
def newlineFs : FS :=
  FS.mk ["w"]
    [(["w", "vcs", "commits"], Node.dir), (["w", "vcs"], Node.dir), (["w"], Node.dir),
     (["w", "a\nb"], Node.file "hello")]

/-- The example state after `add a.txt`: the index lists `a.txt`; no username
is configured. -/
def trackedFs : FS :=
  FS.mk ["w"]
    [(["w", "vcs", "index.txt"], Node.file "a.txt\n"),
     (["w", "vcs", "commits"], Node.dir), (["w", "vcs"], Node.dir), (["w"], Node.dir),
     (["w", "a.txt"], Node.file "hello")]

/-- The example state after `add a.txt` and `config alice`. -/
def readyFs : FS :=
  FS.mk ["w"]
    [(["w", "vcs", "config.txt"], Node.file "alice"),
     (["w", "vcs", "index.txt"], Node.file "a.txt\n"),
     (["w", "vcs", "commits"], Node.dir), (["w", "vcs"], Node.dir), (["w"], Node.dir),
     (["w", "a.txt"], Node.file "hello")]

/-- A state in which the tracked path `../../log.txt` leads out of the working
directory `/w` to the file `/log.txt`; the username is `alice` and the log
holds one record. -/
def traversalFs : FS :=
  FS.mk ["w"]
    [(["w", "vcs", "log.txt"], Node.file "zero\nAuthor: bob\ncommit 0\n\n"),
     (["w", "vcs", "config.txt"], Node.file "alice"),
     (["w", "vcs", "index.txt"], Node.file "../../log.txt\n"),
     (["w", "vcs", "commits"], Node.dir), (["w", "vcs"], Node.dir), (["w"], Node.dir),
     (["log.txt"], Node.file "evil")]

/-- A state in which the tracked path `../x.txt` leads out of the working
directory `/w` to the file `/x.txt`; the username is `alice`. -/
def outsideFs : FS :=
  FS.mk ["w"]
    [(["w", "vcs", "config.txt"], Node.file "alice"),
     (["w", "vcs", "index.txt"], Node.file "../x.txt\n"),
     (["w", "vcs", "commits"], Node.dir), (["w", "vcs"], Node.dir), (["w"], Node.dir),
     (["x.txt"], Node.file "hello")]

theorem stringsSplit_ne_nil (sep : Char) (s : Str) : stringsSplit sep s ≠ [] := by
  cases s with
  | nil => simp [stringsSplit]
  | cons c cs =>
    unfold stringsSplit
    by_cases h : c = sep
    · simp [h]
    · simp only [h, if_false]
      split <;> simp

theorem stringsSplit_cons_sep (sep : Char) (cs : Str) :
    stringsSplit sep (sep :: cs) = [] :: stringsSplit sep cs := by
  simp [stringsSplit]

theorem stringsSplit_cons_ne (sep c : Char) (cs : Str) (h : c ≠ sep) :
    stringsSplit sep (c :: cs) = ((c :: (stringsSplit sep cs).headD []) :: (stringsSplit sep cs).tail) := by
  have hne := stringsSplit_ne_nil sep cs
  cases hs : stringsSplit sep cs with
  | nil => exact absurd hs hne
  | cons l ls => simp [stringsSplit, h, hs]

theorem stringsSplit_append_sep (sep : Char) (x y : Str) :
    stringsSplit sep (x ++ sep :: y) = stringsSplit sep x ++ stringsSplit sep y := by
  induction x with
  | nil => simp [stringsSplit]
  | cons c cs ih =>
    by_cases h : c = sep
    · subst h
      rw [List.cons_append, stringsSplit_cons_sep, stringsSplit_cons_sep, ih]; rfl
    · have hne := stringsSplit_ne_nil sep cs
      rw [List.cons_append, stringsSplit_cons_ne _ _ _ h, stringsSplit_cons_ne _ _ _ h, ih]
      cases hs : stringsSplit sep cs with
      | nil => exact absurd hs hne
      | cons l ls => simp

theorem stringsSplit_noSep (sep : Char) (x : Str) (h : sep ∉ x) : stringsSplit sep x = [x] := by
  induction x with
  | nil => simp [stringsSplit]
  | cons c cs ih =>
    have hc : c ≠ sep := by
      intro hc; apply h; simp [hc]
    have hcs : sep ∉ cs := by
      intro hcs; apply h; simp [hcs]
    simp [stringsSplit, hc, ih hcs]

theorem stringsSplit_mem_noSep (sep : Char) (s l : Str) (h : l ∈ stringsSplit sep s) : sep ∉ l := by
  induction s generalizing l with
  | nil => simp [stringsSplit] at h; simp [h]
  | cons c cs ih =>
    unfold stringsSplit at h
    by_cases hc : c = sep
    · simp only [hc, if_true, List.mem_cons] at h
      rcases h with h | h
      · simp [h]
      · exact ih l h
    · simp only [hc, if_false] at h
      cases hs : stringsSplit sep cs with
      | nil => exact absurd hs (stringsSplit_ne_nil sep cs)
      | cons l0 ls =>
        rw [hs] at h ih
        simp only [List.mem_cons] at h
        rcases h with h | h
        · subst h
          have := ih l0 (by simp)
          simp only [List.mem_cons, not_or]
          exact ⟨fun e => hc e.symm, this⟩
        · exact ih l (by simp [h])


/-! ## The file system: lemmas -/

@[simp] theorem FS.cwd_set (fs : FS) (p : Path) (n : Node) : (fs.set p n).cwd = fs.cwd := rfl

theorem FS.get_set (fs : FS) (p q : Path) (n : Node) (hp : p ≠ []) :
    (fs.set p n).get q = if q = p then some n else fs.get q := by
  unfold FS.get FS.set
  by_cases hq : q = []
  · subst hq
    have : ¬ ([] : Path) = p := fun e => hp e.symm
    simp [this]
  · by_cases hqp : q = p
    · subst hqp; simp [hq, lookupNode]
    · have : ¬ p = q := fun e => hqp e.symm
      simp [hq, hqp, lookupNode, this]

theorem FS.get_set_same (fs : FS) (p : Path) (n : Node) (hp : p ≠ []) :
    (fs.set p n).get p = some n := by
  rw [FS.get_set _ _ _ _ hp]; simp

theorem FS.get_set_other (fs : FS) (p q : Path) (n : Node) (hp : p ≠ []) (hq : q ≠ p) :
    (fs.set p n).get q = fs.get q := by
  rw [FS.get_set _ _ _ _ hp]; simp [hq]

theorem validName_split (n : Str) (hn : validName n) : stringsSplit '/' n = [n] :=
  stringsSplit_noSep '/' n hn.2.2.2

theorem validName_head (n : Str) (hn : validName n) : ¬ n.head? = some '/' := by
  intro h
  cases n with
  | nil => simp at h
  | cons c cs =>
    simp at h
    exact hn.2.2.2 (by simp [h])

theorem FS.start_validName (fs : FS) (n : Str) (hn : validName n) : fs.start n = fs.cwd := by
  simp [FS.start, validName_head n hn]

theorem FS.newEntry_ok (fs : FS) (parent : Path) (c : Str) (t : Path)
    (h : fs.newEntry parent c = Res.ok t) :
    fs.get parent = some Node.dir ∧ t = parent ++ [c] ∧ fs.get t ≠ some Node.dir ∧
      ¬ (c = [] ∨ c = ['.'] ∨ c = ['.', '.']) := by
  unfold FS.newEntry at h
  cases hg : fs.get parent with
  | none => simp [hg] at h
  | some nd =>
    cases nd with
    | file c => simp [hg] at h
    | dir =>
      simp only [hg] at h
      by_cases hc : (c = [] ∨ c = ['.'] ∨ c = ['.', '.'])
      · simp [hc] at h
      · rw [if_neg hc] at h
        cases hg2 : fs.get (parent ++ [c]) with
        | none =>
          simp only [hg2] at h
          injection h with h
          subst h
          exact ⟨rfl, rfl, by simp [hg2], hc⟩
        | some nd2 =>
          cases nd2 with
          | dir => simp [hg2] at h
          | file c2 =>
            simp only [hg2] at h
            injection h with h
            subst h
            exact ⟨rfl, rfl, by simp [hg2], hc⟩

theorem FS.newEntry_eq_ok (fs : FS) (parent : Path) (c : Str)
    (hd : fs.get parent = some Node.dir) (hc : validName c)
    (hnd : fs.get (parent ++ [c]) ≠ some Node.dir) :
    fs.newEntry parent c = Res.ok (parent ++ [c]) := by
  unfold FS.newEntry
  have h1 : ¬ (c = [] ∨ c = ['.'] ∨ c = ['.', '.']) := by
    rintro (h1 | h1 | h1)
    · exact hc.1 h1
    · exact hc.2.1 h1
    · exact hc.2.2.1 h1
  cases hg : fs.get (parent ++ [c]) with
  | none => simp [hd, h1, hg]
  | some nd =>
    cases nd with
    | dir => exact absurd hg hnd
    | file c2 => simp [hd, h1, hg]

theorem FS.resolveCreate_ok (fs : FS) (p : Str) (t : Path)
    (h : fs.resolveCreate p = Res.ok t) :
    p ≠ [] ∧ ∃ parent, fs.walk (fs.start p) (stringsSplit '/' p).dropLast = Res.ok parent ∧
      fs.newEntry parent ((stringsSplit '/' p).getLast?.getD []) = Res.ok t := by
  unfold FS.resolveCreate at h
  by_cases hp : p = []
  · simp [hp] at h
  · rw [if_neg hp] at h
    refine ⟨hp, ?_⟩
    cases hw : fs.walk (fs.start p) (stringsSplit '/' p).dropLast with
    | err e => simp [hw] at h
    | ok parent =>
      simp only [hw] at h
      exact ⟨parent, rfl, h⟩

theorem FS.resolveCreate_ne_nil (fs : FS) (p : Str) (t : Path)
    (h : fs.resolveCreate p = Res.ok t) : t ≠ [] := by
  obtain ⟨_, parent, _, hn⟩ := FS.resolveCreate_ok fs p t h
  obtain ⟨_, ht, _⟩ := FS.newEntry_ok fs parent _ t hn
  subst ht
  simp

theorem FS.resolveCreate_validName (fs : FS) (n : Str) (t : Path) (hn : validName n)
    (h : fs.resolveCreate n = Res.ok t) :
    t = fs.cwd ++ [n] ∧ fs.get fs.cwd = some Node.dir ∧ fs.get (fs.cwd ++ [n]) ≠ some Node.dir := by
  obtain ⟨_, parent, hw, hne⟩ := FS.resolveCreate_ok fs n t h
  simp only [validName_split n hn, List.dropLast_single, FS.walk,
    FS.start_validName fs n hn] at hw hne
  injection hw with hw
  subst hw
  obtain ⟨hd, ht, hnd, _⟩ := FS.newEntry_ok fs _ _ t hne
  simp at ht
  subst ht
  exact ⟨rfl, hd, by simpa using hnd⟩

@[simp] theorem copyFile_cwd (dst src : Str) (fs : FS) : (copyFile dst src fs).1.cwd = fs.cwd := by
  unfold copyFile osCreate
  cases hs : osOpen src fs with
  | err e => rfl
  | ok s =>
    cases hc : fs.resolveCreate dst with
    | err e => rfl
    | ok t =>
      simp only
      cases hr : readAll s (fs.set t (Node.file [])) with
      | err e => rfl
      | ok c => rfl

theorem copyFile_frame (dst src : Str) (fs : FS) (q : Path)
    (hq : ∀ t, fs.resolveCreate dst = Res.ok t → q ≠ t) :
    (copyFile dst src fs).1.get q = fs.get q := by
  unfold copyFile osCreate
  cases hs : osOpen src fs with
  | err e => rfl
  | ok s =>
    cases hc : fs.resolveCreate dst with
    | err e => rfl
    | ok t =>
      have hqt := hq t hc
      have htn := FS.resolveCreate_ne_nil fs dst t hc
      simp only
      cases hr : readAll s (fs.set t (Node.file [])) with
      | err e => simp [FS.get_set_other _ _ _ _ htn hqt]
      | ok c => simp [FS.get_set_other _ _ _ _ htn hqt]


theorem entryName_some (d q : Path) (n : Str) (h : entryName d q = some n) :
    q = d ++ [n] ∧ validName n := by
  unfold entryName at h
  cases hl : q.getLast? with
  | none => simp [hl] at h
  | some m =>
    simp only [hl] at h
    by_cases hc : q.dropLast = d ∧ validName m
    · rw [if_pos hc] at h
      injection h with h
      subst h
      refine ⟨?_, hc.2⟩
      have hq : q ≠ [] := by
        intro e; subst e; simp at hl
      have := List.dropLast_append_getLast hq
      rw [List.getLast?_eq_getLast _ hq] at hl
      injection hl with hl
      rw [← this, hl, hc.1]
    · rw [if_neg hc] at h
      exact absurd h (by simp)

theorem entryName_append (d : Path) (n : Str) (hn : validName n) :
    entryName d (d ++ [n]) = some n := by
  unfold entryName
  simp [hn]

theorem osReadDir_mem (p : Str) (fs : FS) (files : List Str)
    (h : osReadDir p fs = Res.ok files) (n : Str) :
    n ∈ files ↔ ∃ d, fs.resolve p = Res.ok d ∧ validName n ∧
      ∃ e ∈ fs.nodes, e.1 = d ++ [n] := by
  unfold osReadDir at h
  cases hr : fs.resolve p with
  | err e => simp [hr] at h
  | ok d =>
    simp only [hr] at h
    cases hg : fs.get d with
    | none => simp [hg] at h
    | some nd =>
      cases nd with
      | file c => simp [hg] at h
      | dir =>
        simp only [hg] at h
        injection h with h
        subst h
        rw [(List.perm_insertionSort _ _).mem_iff, List.mem_dedup, List.mem_filterMap]
        constructor
        · rintro ⟨e, he, hen⟩
          obtain ⟨h1, h2⟩ := entryName_some d e.1 n hen
          exact ⟨d, rfl, h2, e, he, h1⟩
        · rintro ⟨d1, hd1, hv, e, he, hen⟩
          injection hd1 with hd1
          subst hd1
          exact ⟨e, he, by rw [hen]; exact entryName_append d n hv⟩

theorem osReadDir_valid (p : Str) (fs : FS) (files : List Str)
    (h : osReadDir p fs = Res.ok files) (n : Str) (hn : n ∈ files) : validName n := by
  obtain ⟨_, _, hv, _⟩ := (osReadDir_mem p fs files h n).1 hn
  exact hv


theorem restoreFiles_cons (commitDir : Str) (name : Str) (files : List Str) (fs : FS) :
    restoreFiles commitDir (name :: files) fs
      = restoreFiles commitDir files (copyFile name (filepathJoin [commitDir, name]) fs).1 := rfl

@[simp] theorem restoreFiles_cwd (commitDir : Str) (files : List Str) (fs : FS) :
    (restoreFiles commitDir files fs).cwd = fs.cwd := by
  induction files generalizing fs with
  | nil => rfl
  | cons name rest ih => rw [restoreFiles_cons, ih, copyFile_cwd]

theorem copyFile_name_frame (name src : Str) (fs : FS) (q : Path) (hn : validName name)
    (hq : q ≠ fs.cwd ++ [name]) : (copyFile name src fs).1.get q = fs.get q := by
  apply copyFile_frame
  intro t ht
  rw [(FS.resolveCreate_validName fs name t hn ht).1]
  exact hq

theorem checkoutHandler_ok (args : List Str) (fs : FS) (nd : Node) (files : List Str)
    (hlen : args.length > 2)
    (hs : osStat (filepathJoin [commitsDir, args.getD 2 []]) fs = Res.ok nd)
    (hd : osReadDir (filepathJoin [commitsDir, args.getD 2 []]) fs = Res.ok files) :
    checkoutHandler args fs =
      Result.mk (restoreFiles (filepathJoin [commitsDir, args.getD 2 []]) files fs)
        ["Switched to commit " ++ args.getD 2 [] ++ "."] false := by
  simp only [checkoutHandler, hlen, hs, hd, if_true]

theorem FS.step_name (fs : FS) (cur : Path) (c : Str) (hc : validName c)
    (hcur : fs.get cur = some Node.dir) :
    fs.step cur c = (match fs.get (cur ++ [c]) with
      | none => Res.err Errno.ENOENT
      | some _ => Res.ok (cur ++ [c])) := by
  unfold FS.step
  have h1 : ¬ (c = [] ∨ c = ['.']) := by
    rintro (h1 | h1)
    · exact hc.1 h1
    · exact hc.2.1 h1
  simp only [hcur]
  rw [if_neg h1, if_neg hc.2.2.1]

theorem FS.step_ok_name (fs : FS) (cur : Path) (c : Str) (t : Path) (hc : validName c)
    (h : fs.step cur c = Res.ok t) :
    fs.get cur = some Node.dir ∧ t = cur ++ [c] ∧ fs.get (cur ++ [c]) ≠ none := by
  unfold FS.step at h
  have h1 : ¬ (c = [] ∨ c = ['.']) := by
    rintro (h1 | h1)
    · exact hc.1 h1
    · exact hc.2.1 h1
  cases hg : fs.get cur with
  | none => simp [hg] at h
  | some nd =>
    cases nd with
    | file c => simp [hg] at h
    | dir =>
      simp only [hg] at h
      rw [if_neg h1, if_neg hc.2.2.1] at h
      cases hg2 : fs.get (cur ++ [c]) with
      | none => simp [hg2] at h
      | some nd2 =>
        simp only [hg2] at h
        injection h with h
        exact ⟨rfl, h.symm, by simp⟩

theorem FS.walk_cons_name (fs : FS) (cur : Path) (c : Str) (cs : List Str) (hc : validName c)
    (hcur : fs.get cur = some Node.dir) {nd : Node} (hnext : fs.get (cur ++ [c]) = some nd) :
    fs.walk cur (c :: cs) = fs.walk (cur ++ [c]) cs := by
  simp only [FS.walk, FS.step_name fs cur c hc hcur, hnext]

theorem FS.walk_cons_missing (fs : FS) (cur : Path) (c : Str) (cs : List Str) (hc : validName c)
    (hcur : fs.get cur = some Node.dir) (hnext : fs.get (cur ++ [c]) = none) :
    fs.walk cur (c :: cs) = Res.err Errno.ENOENT := by
  simp only [FS.walk, FS.step_name fs cur c hc hcur, hnext]

theorem FS.walk_cons_ok (fs : FS) (cur : Path) (c : Str) (cs : List Str) (t : Path)
    (hc : validName c) (h : fs.walk cur (c :: cs) = Res.ok t) :
    fs.get cur = some Node.dir ∧ fs.get (cur ++ [c]) ≠ none ∧ fs.walk (cur ++ [c]) cs = Res.ok t := by
  simp only [FS.walk] at h
  cases hs : fs.step cur c with
  | err e => simp [hs] at h
  | ok nxt =>
    simp only [hs] at h
    obtain ⟨h1, h2, h3⟩ := FS.step_ok_name fs cur c nxt hc hs
    subst h2
    exact ⟨h1, h3, h⟩

theorem stringsJoin_split (c : Str) (cs : List Str) (hc : '/' ∉ c) (hcs : ∀ x ∈ cs, '/' ∉ x) :
    stringsSplit '/' (stringsJoin '/' (c :: cs)) = c :: cs := by
  induction cs generalizing c with
  | nil => simpa [stringsJoin] using stringsSplit_noSep '/' c hc
  | cons d ds ih =>
    have := ih d (hcs d (by simp)) (fun x hx => hcs x (by simp [hx]))
    simp only [stringsJoin]
    rw [stringsSplit_append_sep, stringsSplit_noSep '/' c hc, this]
    rfl

theorem relPath_split (c : Str) (cs : List Str) (hc : validName c) (hcs : ∀ x ∈ cs, validName x) :
    stringsSplit '/' (stringsJoin '/' (c :: cs)) = c :: cs :=
  stringsJoin_split c cs hc.2.2.2 (fun x hx => (hcs x hx).2.2.2)

theorem relPath_head (c : Str) (cs : List Str) (hc : validName c) :
    ¬ (stringsJoin '/' (c :: cs)).head? = some '/' := by
  cases c with
  | nil => exact absurd rfl hc.1
  | cons a as =>
    have : a ≠ '/' := by
      intro e; exact hc.2.2.2 (by simp [e])
    cases cs with
    | nil => simpa [stringsJoin] using this
    | cons d ds => simpa [stringsJoin] using this

theorem relPath_ne_nil (c : Str) (cs : List Str) (hc : validName c) :
    stringsJoin '/' (c :: cs) ≠ [] := by
  cases c with
  | nil => exact absurd rfl hc.1
  | cons a as =>
    cases cs with
    | nil => simp [stringsJoin]
    | cons d ds => simp [stringsJoin]

theorem FS.resolve_relPath (fs : FS) (c : Str) (cs : List Str) (hc : validName c)
    (hcs : ∀ x ∈ cs, validName x) :
    fs.resolve (stringsJoin '/' (c :: cs)) = fs.walk fs.cwd (c :: cs) := by
  unfold FS.resolve FS.start
  rw [if_neg (relPath_ne_nil c cs hc), if_neg (relPath_head c cs hc), relPath_split c cs hc hcs]

theorem FS.resolveCreate_relPath (fs : FS) (c : Str) (cs : List Str) (hc : validName c)
    (hcs : ∀ x ∈ cs, validName x) :
    fs.resolveCreate (stringsJoin '/' (c :: cs)) =
      (match fs.walk fs.cwd (c :: cs).dropLast with
        | Res.err e => Res.err e
        | Res.ok parent => fs.newEntry parent ((c :: cs).getLast?.getD [])) := by
  unfold FS.resolveCreate FS.start
  rw [if_neg (relPath_ne_nil c cs hc), if_neg (relPath_head c cs hc), relPath_split c cs hc hcs]


/-! ## The files of the `vcs` directory -/

theorem join_index : filepathJoin [vcsDir, "index.txt"] = stringsJoin '/' [vcsName, indexName] := by
  decide

theorem join_log : filepathJoin [vcsDir, "log.txt"] = stringsJoin '/' [vcsName, logName] := by
  decide

theorem join_config : filepathJoin [vcsDir, "config.txt"] = stringsJoin '/' [vcsName, configName] := by
  decide

theorem validName_vcs : validName vcsName := by decide
theorem validName_commits : validName commitsName := by decide
theorem validName_index : validName indexName := by decide
theorem validName_log : validName logName := by decide
theorem validName_config : validName configName := by decide

/-- Reading a file of the `vcs` directory when that directory is there. -/
theorem osReadFile_vcs (fs : FS) (x : Str) (hx : validName x)
    (hcwd : fs.get fs.cwd = some Node.dir)
    (hvcs : fs.get (fs.cwd ++ [vcsName]) = some Node.dir) :
    osReadFile (stringsJoin '/' [vcsName, x]) fs =
      (match fs.get (fs.cwd ++ [vcsName, x]) with
        | some (Node.file c) => Res.ok c
        | some Node.dir => Res.err Errno.EISDIR
        | none => Res.err Errno.ENOENT) := by
  unfold osReadFile osOpen
  rw [FS.resolve_relPath fs _ _ validName_vcs (by simpa using hx),
    FS.walk_cons_name fs _ _ _ validName_vcs hcwd hvcs]
  cases hg : fs.get (fs.cwd ++ [vcsName, x]) with
  | none =>
    rw [FS.walk_cons_missing fs _ _ _ hx hvcs (by simpa using hg)]
  | some nd =>
    rw [FS.walk_cons_name fs _ _ _ hx hvcs (by simpa using hg)]
    simp only [FS.walk, readAll, List.append_assoc, List.singleton_append, hg]

/-- Opening a file of the `vcs` directory for writing succeeds only when the
directory is there, and yields the file's location. -/
theorem resolveCreate_vcs (fs : FS) (x : Str) (hx : validName x) (t : Path)
    (h : fs.resolveCreate (stringsJoin '/' [vcsName, x]) = Res.ok t) :
    fs.get fs.cwd = some Node.dir ∧ fs.get (fs.cwd ++ [vcsName]) = some Node.dir ∧
      t = fs.cwd ++ [vcsName, x] ∧ fs.get t ≠ some Node.dir := by
  rw [FS.resolveCreate_relPath fs _ _ validName_vcs (by simpa using hx)] at h
  simp only [List.dropLast_cons₂, List.dropLast_single] at h
  cases hw : fs.walk fs.cwd [vcsName] with
  | err e => simp [hw] at h
  | ok parent =>
    simp only [hw] at h
    obtain ⟨h1, _, h3⟩ := FS.walk_cons_ok fs _ _ _ _ validName_vcs hw
    simp only [FS.walk] at h3
    injection h3 with h3
    subst h3
    obtain ⟨hd, ht, hnd, _⟩ := FS.newEntry_ok fs _ _ t h
    simp at ht
    exact ⟨h1, hd, ht, hnd⟩

theorem resolveCreate_vcs_ok (fs : FS) (x : Str) (hx : validName x)
    (hcwd : fs.get fs.cwd = some Node.dir)
    (hvcs : fs.get (fs.cwd ++ [vcsName]) = some Node.dir)
    (hnd : fs.get (fs.cwd ++ [vcsName, x]) ≠ some Node.dir) :
    fs.resolveCreate (stringsJoin '/' [vcsName, x]) = Res.ok (fs.cwd ++ [vcsName, x]) := by
  rw [FS.resolveCreate_relPath fs _ _ validName_vcs (by simpa using hx)]
  simp only [List.dropLast_cons₂, List.dropLast_single]
  rw [FS.walk_cons_name fs _ _ _ validName_vcs hcwd hvcs]
  simp only [FS.walk]
  have := FS.newEntry_eq_ok fs (fs.cwd ++ [vcsName]) x hvcs hx (by simpa using hnd)
  simpa using this


/-! ## The index -/

/-- The lines of a text: the pieces between line feeds without the last one
(`list[:len(list)-1]` of `strings.Split(content, "\n")`). -/
theorem lines_take (s : Str) :
    (stringsSplit '\n' s).take ((stringsSplit '\n' s).length - 1) = (stringsSplit '\n' s).dropLast :=
  (List.dropLast_eq_take _).symm

theorem lines_append (c line : Str) (hc : c = [] ∨ c.getLast? = some '\n') (hl : '\n' ∉ line) :
    (stringsSplit '\n' (c ++ (line ++ ['\n']))).dropLast
      = (stringsSplit '\n' c).dropLast ++ [line] := by
  have e1 : stringsSplit '\n' (line ++ ['\n']) = [line, []] := by
    rw [stringsSplit_append_sep, stringsSplit_noSep _ _ hl]; rfl
  rcases hc with hc | hc
  · subst hc
    simp [e1, stringsSplit]
  · obtain ⟨c1, hc1⟩ := List.getLast?_eq_some_iff.1 hc
    subst hc1
    have e2 : stringsSplit '\n' (c1 ++ ['\n']) = stringsSplit '\n' c1 ++ [[]] := by
      rw [stringsSplit_append_sep]; rfl
    have e3 : c1 ++ ['\n'] ++ (line ++ ['\n']) = c1 ++ '\n' :: (line ++ ['\n']) := by simp
    rw [e3, stringsSplit_append_sep, e1, e2]
    simp [List.dropLast_append_of_ne_nil]


theorem listTrackedFiles_eq (fs : FS) :
    listTrackedFiles fs =
      (match osReadFile (stringsJoin '/' [vcsName, indexName]) fs with
        | Res.err e => if osIsNotExist e then some [] else none
        | Res.ok content => some (stringsSplit '\n' content).dropLast) := by
  unfold listTrackedFiles
  rw [join_index]
  cases h : osReadFile (stringsJoin '/' [vcsName, indexName]) fs with
  | err e => simp only [h]
  | ok content =>
    have := stringsSplit_ne_nil '\n' content
    simp only [h, lines_take, List.length_eq_zero, this, if_false]

theorem IndexWellFormed_eq (fs : FS) :
    IndexWellFormed fs ↔
      ∀ c, osReadFile (stringsJoin '/' [vcsName, indexName]) fs = Res.ok c →
        c = [] ∨ c.getLast? = some '\n' := by
  unfold IndexWellFormed
  rw [join_index]
  cases osReadFile (stringsJoin '/' [vcsName, indexName]) fs with
  | err e => simp
  | ok content => simp

theorem any_eq_mem (file : Str) (l : List Str) :
    (l.any fun line => decide (line = file)) = decide (file ∈ l) := by
  induction l with
  | nil => simp
  | cons a as ih =>
    simp only [List.any_cons, List.mem_cons, ih]
    by_cases e : a = file
    · simp [e]
    · have : ¬ file = a := fun e1 => e e1.symm
      simp [e, this]

theorem isFileVersioned_eq (file : Str) (fs : FS) (l : List Str)
    (h : listTrackedFiles fs = some l) :
    isFileVersioned file fs = some (decide (file ∈ l)) := by
  unfold isFileVersioned
  rw [h]
  simp only [any_eq_mem]

/-- The effect of appending a line to the index. -/
theorem append_index (fs fs1 : FS) (line : Str) (prev : List Str)
    (hwf : IndexWellFormed fs) (hl : '\n' ∉ line) (hprev : listTrackedFiles fs = some prev)
    (happ : osAppendFile (stringsJoin '/' [vcsName, indexName]) (line ++ ['\n']) fs = Res.ok fs1) :
    listTrackedFiles fs1 = some (prev ++ [line]) := by
  unfold osAppendFile at happ
  cases hr : fs.resolveCreate (stringsJoin '/' [vcsName, indexName]) with
  | err e => simp [hr] at happ
  | ok t =>
    simp only [hr] at happ
    obtain ⟨hcwd, hvcs, ht, hnd⟩ := resolveCreate_vcs fs indexName validName_index t hr
    have htn : t ≠ [] := FS.resolveCreate_ne_nil fs _ t hr
    have hread := osReadFile_vcs fs indexName validName_index hcwd hvcs
    rw [← ht] at hread
    rw [listTrackedFiles_eq, hread] at hprev
    rw [IndexWellFormed_eq, hread] at hwf
    have hcwd_ne : fs.cwd ≠ t := by
      rw [ht]; intro e
      have := congrArg List.length e
      simp at this
    have hvcs_ne : fs.cwd ++ [vcsName] ≠ t := by
      rw [ht]; intro e
      have := congrArg List.length e
      simp at this
    -- the state after the write
    have key : ∀ old new, fs1 = fs.set t (Node.file new) →
        new = old ++ (line ++ ['\n']) → (old = [] ∨ old.getLast? = some '\n') →
        some (stringsSplit '\n' old).dropLast = some prev →
        listTrackedFiles fs1 = some (prev ++ [line]) := by
      intro old new hfs hnew hold hp
      subst hfs
      have h1 : (fs.set t (Node.file new)).get (fs.set t (Node.file new)).cwd = some Node.dir := by
        rw [FS.cwd_set, FS.get_set_other _ _ _ _ htn hcwd_ne]; exact hcwd
      have h2 : (fs.set t (Node.file new)).get ((fs.set t (Node.file new)).cwd ++ [vcsName])
          = some Node.dir := by
        rw [FS.cwd_set, FS.get_set_other _ _ _ _ htn hvcs_ne]; exact hvcs
      rw [listTrackedFiles_eq, osReadFile_vcs _ indexName validName_index h1 h2, FS.cwd_set,
        ← ht, FS.get_set_same _ _ _ htn]
      simp only
      rw [hnew, lines_append old line hold hl]
      injection hp with hp
      rw [hp]
    cases hg : fs.get t with
    | none =>
      simp only [hg] at happ hprev hwf
      injection happ with happ
      exact key [] _ happ.symm (by simp) (Or.inl rfl) (by simpa [stringsSplit, osIsNotExist] using hprev)
    | some nd =>
      cases nd with
      | dir => exact absurd hg hnd
      | file c =>
        simp only [hg] at happ hprev hwf
        injection happ with happ
        exact key c _ happ.symm rfl (hwf c rfl) hprev


/-! ## `addHandler` -/

theorem addHandler_statErr (prog cmd path : Str) (rest : List Str) (fs : FS) (e : Errno)
    (hs : osStat (filepathJoin [".", path]) fs = Res.err e) :
    addHandler (prog :: cmd :: path :: rest) fs =
      if osIsNotExist e then Result.mk fs ["Can't find '" ++ path ++ "'."] false
      else Result.mk fs [] true := by
  have hlen : (prog :: cmd :: path :: rest).length > 2 := by simp
  have hget : (prog :: cmd :: path :: rest).getD 2 [] = path := rfl
  simp only [addHandler, hlen, hget, hs, if_true]

theorem addHandler_fatalIndex (prog cmd path : Str) (rest : List Str) (fs : FS) (nd : Node)
    (hs : osStat (filepathJoin [".", path]) fs = Res.ok nd)
    (hl : listTrackedFiles fs = none) :
    addHandler (prog :: cmd :: path :: rest) fs = Result.mk fs [] true := by
  have hlen : (prog :: cmd :: path :: rest).length > 2 := by simp
  have hget : (prog :: cmd :: path :: rest).getD 2 [] = path := rfl
  have hv : isFileVersioned path fs = none := by simp [isFileVersioned, hl]
  simp only [addHandler, hlen, hget, hs, hv, if_true]

theorem addHandler_tracked (prog cmd path : Str) (rest : List Str) (fs : FS) (nd : Node)
    (l : List Str) (hs : osStat (filepathJoin [".", path]) fs = Res.ok nd)
    (hl : listTrackedFiles fs = some l) (hmem : path ∈ l) :
    addHandler (prog :: cmd :: path :: rest) fs = Result.mk fs [] false := by
  have hlen : (prog :: cmd :: path :: rest).length > 2 := by simp
  have hget : (prog :: cmd :: path :: rest).getD 2 [] = path := rfl
  have hv : isFileVersioned path fs = some true := by
    rw [isFileVersioned_eq path fs l hl]; simp [hmem]
  simp only [addHandler, hlen, hget, hs, hv, if_true]

theorem addHandler_untracked (prog cmd path : Str) (rest : List Str) (fs : FS) (nd : Node)
    (l : List Str) (hs : osStat (filepathJoin [".", path]) fs = Res.ok nd)
    (hl : listTrackedFiles fs = some l) (hmem : path ∉ l) :
    addHandler (prog :: cmd :: path :: rest) fs =
      (match osAppendFile (stringsJoin '/' [vcsName, indexName]) (path ++ ['\n']) fs with
        | Res.err _ => Result.mk fs [] true
        | Res.ok fs1 => Result.mk fs1 ["The file '" ++ path ++ "' is tracked."] false) := by
  have hlen : (prog :: cmd :: path :: rest).length > 2 := by simp
  have hget : (prog :: cmd :: path :: rest).getD 2 [] = path := rfl
  have hv : isFileVersioned path fs = some false := by
    rw [isFileVersioned_eq path fs l hl]; simp [hmem]
  have hnl : (("\n" : String) : Str) = ['\n'] := rfl
  simp only [addHandler, hlen, hget, hs, hv, if_true, join_index, hnl]

/-- C6 (as amended). Idempotent tracking, for a path without a line feed, in a
state whose index file is absent or made of lines ended by a line feed: a
second `add` of the path right after a first leaves the file system, and with
it the persisted index, exactly as the first call left it, and when the path
occurred at most once in the list before, it occurs at most once after. -/
theorem addHandler_idempotent (prog cmd path : Str) (rest : List Str) (fs : FS)
    (hwf : IndexWellFormed fs) (hnl : '\n' ∉ path) :
    (addHandler (prog :: cmd :: path :: rest) (addHandler (prog :: cmd :: path :: rest) fs).fs).fs
      = (addHandler (prog :: cmd :: path :: rest) fs).fs ∧
    (∀ prev, listTrackedFiles fs = some prev → prev.count path ≤ 1 →
      ∀ l, listTrackedFiles
          (addHandler (prog :: cmd :: path :: rest)
            (addHandler (prog :: cmd :: path :: rest) fs).fs).fs = some l →
        l.count path ≤ 1) := by
  -- the first call either leaves the state alone or appends the path
  have first : (addHandler (prog :: cmd :: path :: rest) fs).fs = fs ∨
      ∃ prev, listTrackedFiles fs = some prev ∧ path ∉ prev ∧
        listTrackedFiles (addHandler (prog :: cmd :: path :: rest) fs).fs
          = some (prev ++ [path]) := by
    cases hs : osStat (filepathJoin [".", path]) fs with
    | err e =>
      rw [addHandler_statErr prog cmd path rest fs e hs]
      left; split <;> rfl
    | ok nd =>
      cases hl : listTrackedFiles fs with
      | none => rw [addHandler_fatalIndex prog cmd path rest fs nd hs hl]; exact Or.inl rfl
      | some prev =>
        by_cases hmem : path ∈ prev
        · rw [addHandler_tracked prog cmd path rest fs nd prev hs hl hmem]; exact Or.inl rfl
        · rw [addHandler_untracked prog cmd path rest fs nd prev hs hl hmem]
          cases happ : osAppendFile (stringsJoin '/' [vcsName, indexName]) (path ++ ['\n']) fs with
          | err e => exact Or.inl rfl
          | ok fs1 =>
            right
            exact ⟨prev, rfl, hmem, append_index fs fs1 path prev hwf hnl hl happ⟩
  -- a call in a state where the path is tracked changes nothing
  have second : ∀ s l, listTrackedFiles s = some l → path ∈ l →
      (addHandler (prog :: cmd :: path :: rest) s).fs = s := by
    intro s l hl hmem
    cases hs : osStat (filepathJoin [".", path]) s with
    | err e =>
      rw [addHandler_statErr prog cmd path rest s e hs]
      split <;> rfl
    | ok nd => rw [addHandler_tracked prog cmd path rest s nd l hs hl hmem]
  rcases first with h1 | ⟨prev, hprev, hmem, h1⟩
  · constructor
    · rw [h1, h1]
    · intro prev hprev hcount l hl
      rw [h1] at hl
      by_cases hmem : path ∈ prev
      · rw [second fs prev hprev hmem, hprev] at hl
        injection hl with hl
        rw [← hl]; exact hcount
      · -- the first call did not change the state, so the second does what it did
        rw [h1, hprev] at hl
        injection hl with hl
        rw [← hl]; exact hcount
  · have h2 := second _ _ h1 (by simp)
    constructor
    · exact h2
    · intro prev1 hprev1 _ l hl
      rw [h2, h1] at hl
      injection hl with hl
      rw [hprev] at hprev1
      injection hprev1 with hprev1
      subst hprev1
      rw [← hl, List.count_append, List.count_eq_zero_of_not_mem hmem]
      simp

/-- C6, witness: tracking `a.txt` twice in the example state. -/
theorem addHandler_idempotent_witness :
    (addHandler ["svcs", "add", "a.txt"] (addHandler ["svcs", "add", "a.txt"] exampleFs).fs).fs
      = (addHandler ["svcs", "add", "a.txt"] exampleFs).fs :=
  (addHandler_idempotent "svcs" "add" "a.txt" [] exampleFs (by decide) (by decide)).1

/-- C6, counterexample: the second `add` of a path that contains a line feed
changes the persisted index again. -/
theorem addHandler_idempotent_counterexample :
    listTrackedFiles (addHandler ["svcs", "add", "a\nb"] newlineFs).fs = some [("a" : Str), "b"] ∧
    listTrackedFiles
      (addHandler ["svcs", "add", "a\nb"] (addHandler ["svcs", "add", "a\nb"] newlineFs).fs).fs
        = some [("a" : Str), "b", "a", "b"] ∧
    (addHandler ["svcs", "add", "a\nb"] (addHandler ["svcs", "add", "a\nb"] newlineFs).fs).fs
      ≠ (addHandler ["svcs", "add", "a\nb"] newlineFs).fs := by
  decide


/-! ## Hashes -/

theorem leBytes_length (n k : Nat) : (leBytes n k).length = k := by simp [leBytes]

theorem md5Sum_length (msg : List Nat) : (md5Sum msg).length = 16 := by
  simp [md5Sum, leBytes_length]

theorem hexString_length (bs : List Nat) : (hexString bs).length = 2 * bs.length := by
  induction bs with
  | nil => rfl
  | cons b bs ih => simp [hexString, ih]; omega

theorem hexDigit_table_slash : ∀ n, n < 16 → hexDigit n ≠ '/' := by
  decide

theorem hexDigit_ne_slash (n : Nat) (hn : n < 16) : hexDigit n ≠ '/' :=
  hexDigit_table_slash n hn

theorem hexString_noSlash (bs : List Nat) : '/' ∉ hexString bs := by
  induction bs with
  | nil => simp [hexString]
  | cons b bs ih =>
    simp only [hexString, List.mem_cons, not_or]
    exact ⟨fun e => hexDigit_ne_slash _ (Nat.mod_lt _ (by decide)) e.symm,
      fun e => hexDigit_ne_slash _ (Nat.mod_lt _ (by decide)) e.symm, ih⟩

theorem md5Hex_length (s : Str) : (md5Hex s).length = 32 := by
  simp [md5Hex, hexString_length, md5Sum_length]

theorem md5Hex_ne_nil (s : Str) : md5Hex s ≠ [] := by
  intro h
  have := md5Hex_length s
  rw [h] at this
  simp at this

theorem md5Hex_validName (s : Str) : validName (md5Hex s) := by
  have hl := md5Hex_length s
  refine ⟨md5Hex_ne_nil s, ?_, ?_, hexString_noSlash _⟩
  · intro h; rw [h] at hl; simp at hl
  · intro h; rw [h] at hl; simp at hl

theorem fileHash_eq (file : Str) (fs : FS) :
    fileHash file fs =
      (match osReadFile file fs with
        | Res.ok content => some (md5Hex content)
        | Res.err _ => none) := by
  unfold fileHash osReadFile
  cases h : osOpen file fs with
  | err e => rfl
  | ok f =>
    simp only
    cases h2 : readAll f fs with
    | err e => rfl
    | ok c => rfl

theorem hashesString_ok (fs : FS) (files contents : List Str)
    (h : files.map (fun p => osReadFile p fs) = contents.map Res.ok) :
    hashesString fs files = some (contents.map md5Hex).flatten := by
  induction files generalizing contents with
  | nil =>
    cases contents with
    | nil => rfl
    | cons c cs => simp at h
  | cons f rest ih =>
    cases contents with
    | nil => simp at h
    | cons c cs =>
      simp only [List.map_cons, List.cons.injEq] at h
      simp only [hashesString, fileHash_eq, h.1, ih cs h.2, List.map_cons, List.flatten_cons]

theorem hashesString_fatal (fs : FS) (files : List Str) (p : Str) (hp : p ∈ files)
    (h : ∀ c, osReadFile p fs ≠ Res.ok c) : hashesString fs files = none := by
  induction files with
  | nil => simp at hp
  | cons f rest ih =>
    simp only [List.mem_cons] at hp
    unfold hashesString
    rw [fileHash_eq]
    cases hr : osReadFile f fs with
    | err e => rfl
    | ok c =>
      simp only
      rcases hp with hp | hp
      · subst hp; exact absurd hr (h c)
      · rw [ih hp]

theorem trackedFilesHash_eq (fs : FS) (files : List Str) (h : listTrackedFiles fs = some files) :
    trackedFilesHash fs =
      if files = [] then some []
      else (match hashesString fs files with
        | none => none
        | some hashes => some (md5Hex hashes)) := by
  unfold trackedFilesHash
  simp only [h, List.length_eq_zero]

/-- C4. Snapshot fingerprint, when the index can be read as `files`: the
result of `trackedFilesHash` is the empty string exactly when `files` is
empty; when `files` is not empty and every tracked file can be read, it is the
MD5 (in the hexadecimal text `%x` prints) of the concatenation, in index
order, of the file hashes, the hash of a file being the MD5 (same text) of
its content, which is what `fileHash` returns; and when some tracked file
cannot be read there is no result (the process ends). -/
theorem trackedFilesHash_spec (fs : FS) (files : List Str)
    (hfiles : listTrackedFiles fs = some files) :
    (trackedFilesHash fs = some [] ↔ files = []) ∧
    (∀ contents : List Str, files ≠ [] →
      files.map (fun p => osReadFile p fs) = contents.map Res.ok →
      files.map (fun p => fileHash p fs) = contents.map (fun c => some (md5Hex c)) ∧
      trackedFilesHash fs = some (md5Hex (contents.map md5Hex).flatten)) ∧
    (∀ p ∈ files, (∀ c, osReadFile p fs ≠ Res.ok c) → trackedFilesHash fs = none) := by
  rw [trackedFilesHash_eq fs files hfiles]
  refine ⟨?_, fun contents hne hc => ⟨?_, ?_⟩, fun p hp hbad => ?_⟩
  · by_cases hf : files = []
    · simp [hf]
    · simp only [hf, if_false, iff_false]
      cases hashesString fs files with
      | none => simp
      | some hs => simpa using md5Hex_ne_nil hs
  · have : (fun p => fileHash p fs) = fun p =>
        (match osReadFile p fs with
          | Res.ok content => some (md5Hex content)
          | Res.err _ => none) := by
      funext p; exact fileHash_eq p fs
    rw [this]
    have h2 := congrArg (List.map (fun r : Res Str =>
        (match r with
          | Res.ok content => some (md5Hex content)
          | Res.err _ => none))) hc
    simpa [List.map_map, Function.comp_def] using h2
  · rw [if_neg hne, hashesString_ok fs files contents hc]
  · have hne : files ≠ [] := by
      intro e; subst e; simp at hp
    rw [if_neg hne, hashesString_fatal fs files p hp hbad]


/-- C4, witness: the fingerprint of the example state in which `a.txt`, with
content `hello`, is the one tracked file. -/
theorem trackedFilesHash_spec_witness :
    trackedFilesHash readyFs = some (md5Hex ([("hello" : Str)].map md5Hex).flatten) :=
  ((trackedFilesHash_spec readyFs ["a.txt"] (by decide)).2.1 ["hello"] (by decide)
    (by decide)).2

theorem osAppendFile_vcs (fs : FS) (x data : Str) (hx : validName x)
    (hcwd : fs.get fs.cwd = some Node.dir) (hvcs : fs.get (fs.cwd ++ [vcsName]) = some Node.dir)
    (hnd : fs.get (fs.cwd ++ [vcsName, x]) ≠ some Node.dir) :
    osAppendFile (stringsJoin '/' [vcsName, x]) data fs
      = Res.ok (fs.set (fs.cwd ++ [vcsName, x])
          (Node.file (fs.content (fs.cwd ++ [vcsName, x]) ++ data))) := by
  unfold osAppendFile FS.content
  rw [resolveCreate_vcs_ok fs x hx hcwd hvcs hnd]
  simp only
  cases hg : fs.get (fs.cwd ++ [vcsName, x]) with
  | none => simp
  | some nd =>
    cases nd with
    | dir => exact absurd hg hnd
    | file c => simp

theorem osAppendFile_vcs_ok (fs fs1 : FS) (x data : Str) (hx : validName x)
    (h : osAppendFile (stringsJoin '/' [vcsName, x]) data fs = Res.ok fs1) :
    fs.get fs.cwd = some Node.dir ∧ fs.get (fs.cwd ++ [vcsName]) = some Node.dir ∧
    fs.get (fs.cwd ++ [vcsName, x]) ≠ some Node.dir ∧
    fs1 = fs.set (fs.cwd ++ [vcsName, x])
      (Node.file (fs.content (fs.cwd ++ [vcsName, x]) ++ data)) := by
  have h0 := h
  unfold osAppendFile at h
  cases hr : fs.resolveCreate (stringsJoin '/' [vcsName, x]) with
  | err e => simp [hr] at h
  | ok t =>
    obtain ⟨hcwd, hvcs, ht, hnd⟩ := resolveCreate_vcs fs x hx t hr
    subst ht
    rw [osAppendFile_vcs fs x data hx hcwd hvcs hnd] at h0
    injection h0 with h0
    exact ⟨hcwd, hvcs, hnd, h0.symm⟩

theorem vcsFile_ne_nil (cwd : Path) (x : Str) : cwd ++ [vcsName, x] ≠ [] := by simp

theorem vcsFile_ne_cwd (cwd : Path) (x : Str) : cwd ≠ cwd ++ [vcsName, x] := by
  intro e
  have := congrArg List.length e
  simp at this

theorem vcsFile_ne_vcs (cwd : Path) (x : Str) : cwd ++ [vcsName] ≠ cwd ++ [vcsName, x] := by
  intro e
  have := congrArg List.length e
  simp at this

theorem vcsFile_ne (cwd : Path) (x y : Str) (h : x ≠ y) :
    cwd ++ [vcsName, x] ≠ cwd ++ [vcsName, y] := by
  simpa using h

theorem cleanComps_valid (rooted : Bool) (stack cs : List Str) (hcs : ∀ x ∈ cs, validName x) :
    cleanComps rooted stack cs = stack.reverse ++ cs := by
  induction cs generalizing stack with
  | nil => simp [cleanComps]
  | cons c cs ih =>
    have hc := hcs c (by simp)
    have h1 : ¬ (c = [] ∨ c = ['.']) := by
      rintro (h1 | h1)
      · exact hc.1 h1
      · exact hc.2.1 h1
    unfold cleanComps
    rw [if_neg h1, if_neg hc.2.2.1, ih _ (fun x hx => hcs x (by simp [hx]))]
    simp

theorem filepathClean_relPath (c : Str) (cs : List Str) (hc : validName c)
    (hcs : ∀ x ∈ cs, validName x) :
    filepathClean (stringsJoin '/' (c :: cs)) = stringsJoin '/' (c :: cs) := by
  unfold filepathClean
  have hall : ∀ x ∈ c :: cs, validName x := by
    intro x hx
    rcases List.mem_cons.1 hx with h | h
    · rw [h]; exact hc
    · exact hcs x h
  simp only [relPath_head c cs hc, decide_False, relPath_split c cs hc hcs,
    cleanComps_valid false [] (c :: cs) hall, List.reverse_nil, List.nil_append,
    Bool.false_eq_true, if_false, relPath_ne_nil c cs hc]

theorem filepathClean_dotPath (c : Str) (cs : List Str) (hc : validName c)
    (hcs : ∀ x ∈ cs, validName x) :
    filepathClean (stringsJoin '/' (dotName :: c :: cs)) = stringsJoin '/' (c :: cs) := by
  unfold filepathClean
  have hall : ∀ x ∈ c :: cs, validName x := by
    intro x hx
    rcases List.mem_cons.1 hx with h | h
    · rw [h]; exact hc
    · exact hcs x h
  have hd : '/' ∉ dotName := by decide
  have hhead : ¬ (stringsJoin '/' (dotName :: c :: cs)).head? = some '/' := by
    simp [stringsJoin, dotName]
  have hsplit : stringsSplit '/' (stringsJoin '/' (dotName :: c :: cs)) = dotName :: c :: cs :=
    stringsJoin_split dotName (c :: cs) hd (fun x hx => (hall x hx).2.2.2)
  have hclean : cleanComps false [] (dotName :: c :: cs) = c :: cs := by
    have : dotName = ['.'] := rfl
    rw [cleanComps, if_pos (Or.inr this), cleanComps_valid false [] (c :: cs) hall]
    rfl
  simp only [hhead, decide_False, hsplit, hclean, Bool.false_eq_true, if_false,
    relPath_ne_nil c cs hc]

theorem stringsJoin_snoc (a : Str) (l : List Str) (h : Str) :
    stringsJoin '/' [stringsJoin '/' (a :: l), h] = stringsJoin '/' (a :: (l ++ [h])) := by
  induction l generalizing a with
  | nil => simp [stringsJoin]
  | cons b l ih =>
    have := ih b
    simp only [stringsJoin, List.cons_append, List.append_assoc] at this ⊢
    rw [this]
    rfl

theorem commitsDir_eq : commitsDir = stringsJoin '/' [dotName, vcsName, commitsName] := by decide

/-- The pathname of the commit directory of a fingerprint. -/
theorem join_commitDir (h : Str) (hh : validName h) :
    filepathJoin [commitsDir, h] = stringsJoin '/' [vcsName, commitsName, h] := by
  have hne : commitsDir ≠ [] := by decide
  unfold filepathJoin
  rw [if_neg hne, commitsDir_eq, stringsJoin_snoc]
  exact filepathClean_dotPath vcsName [commitsName, h] validName_vcs (by
    intro x hx
    simp only [List.mem_cons, List.mem_singleton, List.not_mem_nil, or_false] at hx
    rcases hx with hx | hx
    · rw [hx]; exact validName_commits
    · rw [hx]; exact hh)

/-- The pathname of a file in the commit directory of a fingerprint. -/
theorem join_commitFile (h n : Str) (hh : validName h) (hn : validName n) :
    filepathJoin [stringsJoin '/' [vcsName, commitsName, h], n]
      = stringsJoin '/' [vcsName, commitsName, h, n] := by
  have hne : stringsJoin '/' [vcsName, commitsName, h] ≠ [] := relPath_ne_nil _ _ validName_vcs
  unfold filepathJoin
  rw [if_neg hne, stringsJoin_snoc]
  exact filepathClean_relPath vcsName [commitsName, h, n] validName_vcs (by
    intro x hx
    simp only [List.mem_cons, List.mem_singleton, List.not_mem_nil, or_false] at hx
    rcases hx with hx | hx | hx
    · rw [hx]; exact validName_commits
    · rw [hx]; exact hh
    · rw [hx]; exact hn)

theorem validNames_snap (h : Str) (hh : validName h) :
    ∀ x ∈ [commitsName, h], validName x := by
  intro x hx
  simp only [List.mem_cons, List.mem_singleton, List.not_mem_nil, or_false] at hx
  rcases hx with hx | hx
  · rw [hx]; exact validName_commits
  · rw [hx]; exact hh

theorem validNames_snapFile (h n : Str) (hh : validName h) (hn : validName n) :
    ∀ x ∈ [commitsName, h, n], validName x := by
  intro x hx
  simp only [List.mem_cons, List.mem_singleton, List.not_mem_nil, or_false] at hx
  rcases hx with hx | hx | hx
  · rw [hx]; exact validName_commits
  · rw [hx]; exact hh
  · rw [hx]; exact hn

/-- Resolution of the commit directory of a fingerprint in a bootstrapped state. -/
theorem resolve_snap (fs : FS) (h : Str) (hh : validName h) (hboot : Bootstrapped fs) :
    fs.resolve (stringsJoin '/' [vcsName, commitsName, h]) =
      (match fs.get (snapPath fs h) with
        | none => Res.err Errno.ENOENT
        | some _ => Res.ok (snapPath fs h)) := by
  rw [FS.resolve_relPath fs _ _ validName_vcs (validNames_snap h hh),
    FS.walk_cons_name fs _ _ _ validName_vcs hboot.1 hboot.2.1,
    FS.walk_cons_name fs _ _ _ validName_commits hboot.2.1 (by simpa using hboot.2.2)]
  simp only [List.append_assoc, List.singleton_append, List.cons_append, List.nil_append]
  have hc : fs.get (fs.cwd ++ [vcsName, commitsName]) = some Node.dir := hboot.2.2
  cases hg : fs.get (fs.cwd ++ [vcsName, commitsName, h]) with
  | none =>
    rw [FS.walk_cons_missing fs _ _ _ hh hc (by simpa using hg)]
  | some nd =>
    rw [FS.walk_cons_name fs _ _ _ hh hc (by simpa using hg)]
    simp [FS.walk]

theorem osStat_snap (fs : FS) (h : Str) (hh : validName h) (hboot : Bootstrapped fs) :
    osStat (stringsJoin '/' [vcsName, commitsName, h]) fs =
      (match fs.get (snapPath fs h) with
        | none => Res.err Errno.ENOENT
        | some nd => Res.ok nd) := by
  unfold osStat
  rw [resolve_snap fs h hh hboot]
  cases hg : fs.get (snapPath fs h) with
  | none => rfl
  | some nd => simp [hg]

theorem osMkdirAll_snap (fs : FS) (h : Str) (hh : validName h) (hboot : Bootstrapped fs)
    (hnone : fs.get (snapPath fs h) = none) :
    osMkdirAll (stringsJoin '/' [vcsName, commitsName, h]) fs
      = (fs.set (snapPath fs h) Node.dir, none) := by
  have hv1 : ¬ (vcsName = [] ∨ vcsName = ['.']) := by decide
  have hv2 : ¬ vcsName = ['.', '.'] := by decide
  have hc1 : ¬ (commitsName = [] ∨ commitsName = ['.']) := by decide
  have hc2 : ¬ commitsName = ['.', '.'] := by decide
  have hh1 : ¬ (h = [] ∨ h = ['.']) := by
    rintro (e | e)
    · exact hh.1 e
    · exact hh.2.1 e
  unfold osMkdirAll FS.start
  rw [if_neg (relPath_ne_nil _ _ validName_vcs), if_neg (relPath_head _ _ validName_vcs),
    relPath_split _ _ validName_vcs (validNames_snap h hh)]
  have hc : fs.get (fs.cwd ++ [vcsName] ++ [commitsName]) = some Node.dir := by
    simpa using hboot.2.2
  have hn : fs.get (fs.cwd ++ [vcsName] ++ [commitsName] ++ [h]) = none := by
    simpa using hnone
  simp only [mkdirWalk, hboot.1, hboot.2.1, hc, hn, hv1, hv2, hc1, hc2, hh1, hh.2.2.1, if_false]
  simp


/-! ## Copying files -/

theorem copyFile_preserves_dir (dst src : Str) (fs : FS) (q : Path)
    (h : fs.get q = some Node.dir) : (copyFile dst src fs).1.get q = some Node.dir := by
  rw [copyFile_frame dst src fs q]
  · exact h
  · intro t ht e
    obtain ⟨_, parent, _, hn⟩ := FS.resolveCreate_ok fs dst t ht
    obtain ⟨_, _, hnd, _⟩ := FS.newEntry_ok fs parent _ t hn
    rw [← e] at hnd
    exact hnd h

theorem FS.resolve_name (fs : FS) (p : Str) (hp : validName p)
    (hcwd : fs.get fs.cwd = some Node.dir) :
    fs.resolve p =
      (match fs.get (fs.cwd ++ [p]) with
        | none => Res.err Errno.ENOENT
        | some _ => Res.ok (fs.cwd ++ [p])) := by
  have e : p = stringsJoin '/' [p] := rfl
  rw [e, FS.resolve_relPath fs p [] hp (by simp)]
  cases hg : fs.get (fs.cwd ++ [stringsJoin '/' [p]]) with
  | none => rw [FS.walk_cons_missing fs _ _ _ hp hcwd hg]
  | some nd => rw [FS.walk_cons_name fs _ _ _ hp hcwd hg]; rfl

theorem FS.resolveCreate_name (fs : FS) (p : Str) (hp : validName p) :
    fs.resolveCreate p = fs.newEntry fs.cwd p := by
  have e : p = stringsJoin '/' [p] := rfl
  rw [e, FS.resolveCreate_relPath fs p [] hp (by simp)]
  rfl

theorem snapDirs_walk (fs : FS) (h : Str) (hh : validName h) (hd : SnapDirs fs h) :
    fs.walk fs.cwd [vcsName, commitsName, h] = Res.ok (snapPath fs h) := by
  have := resolve_snap fs h hh hd.1
  rw [hd.2, FS.resolve_relPath fs _ _ validName_vcs (validNames_snap h hh)] at this
  exact this

theorem resolveCreate_snapFile (fs : FS) (h p : Str) (hh : validName h) (hp : validName p)
    (hd : SnapDirs fs h) :
    fs.resolveCreate (stringsJoin '/' [vcsName, commitsName, h, p])
      = fs.newEntry (snapPath fs h) p := by
  rw [FS.resolveCreate_relPath fs _ _ validName_vcs (validNames_snapFile h p hh hp)]
  have : ([vcsName, commitsName, h, p] : List Str).dropLast = [vcsName, commitsName, h] := rfl
  rw [this, snapDirs_walk fs h hh hd]
  rfl

theorem resolve_snapFile (fs : FS) (h p : Str) (hh : validName h) (hp : validName p)
    (hd : SnapDirs fs h) :
    fs.resolve (stringsJoin '/' [vcsName, commitsName, h, p]) =
      (match fs.get (snapPath fs h ++ [p]) with
        | none => Res.err Errno.ENOENT
        | some _ => Res.ok (snapPath fs h ++ [p])) := by
  rw [FS.resolve_relPath fs _ _ validName_vcs (validNames_snapFile h p hh hp),
    FS.walk_cons_name fs _ _ _ validName_vcs hd.1.1 hd.1.2.1,
    FS.walk_cons_name fs _ _ _ validName_commits hd.1.2.1 (by simpa using hd.1.2.2),
    FS.walk_cons_name fs _ _ _ hh (by simpa using hd.1.2.2) (by simpa using hd.2)]
  have e : fs.cwd ++ [vcsName] ++ [commitsName] ++ [h] = snapPath fs h := by simp
  rw [e]
  cases hg : fs.get (snapPath fs h ++ [p]) with
  | none => rw [FS.walk_cons_missing fs _ _ _ hp hd.2 hg]
  | some nd => rw [FS.walk_cons_name fs _ _ _ hp hd.2 hg]; rfl


theorem length_ne_of (p q : Path) (h : p.length ≠ q.length) : p ≠ q := by
  intro e; exact h (by rw [e])

/-- One copy of the commit loop. -/
theorem copyFile_toSnap (fs : FS) (h p : Str) (hh : validName h) (hp : validName p)
    (hd : SnapDirs fs h) :
    (copyFile (stringsJoin '/' [vcsName, commitsName, h, p]) p fs).1.cwd = fs.cwd ∧
    (∀ q, q ≠ snapPath fs h ++ [p] →
      (copyFile (stringsJoin '/' [vcsName, commitsName, h, p]) p fs).1.get q = fs.get q) ∧
    ((copyFile (stringsJoin '/' [vcsName, commitsName, h, p]) p fs).2 = none →
      ∃ c, fs.get (fs.cwd ++ [p]) = some (Node.file c) ∧
        (copyFile (stringsJoin '/' [vcsName, commitsName, h, p]) p fs).1.get (snapPath fs h ++ [p])
          = some (Node.file c)) ∧
    (∀ c, fs.get (fs.cwd ++ [p]) = some (Node.file c) →
      fs.get (snapPath fs h ++ [p]) ≠ some Node.dir →
      (copyFile (stringsJoin '/' [vcsName, commitsName, h, p]) p fs).2 = none) := by
  have hne : snapPath fs h ++ [p] ≠ [] := by simp
  have hsrc_ne : fs.cwd ++ [p] ≠ snapPath fs h ++ [p] :=
    length_ne_of _ _ (by simp)
  refine ⟨copyFile_cwd _ _ _, fun q hq => ?_, ?_, ?_⟩
  · apply copyFile_frame
    intro t ht
    rw [resolveCreate_snapFile fs h p hh hp hd] at ht
    rw [(FS.newEntry_ok fs _ _ t ht).2.1]
    exact hq
  · intro hnone
    unfold copyFile osOpen osCreate at hnone ⊢
    rw [FS.resolve_name fs p hp hd.1.1, resolveCreate_snapFile fs h p hh hp hd] at hnone ⊢
    cases hg : fs.get (fs.cwd ++ [p]) with
    | none => simp [hg] at hnone
    | some nd =>
      simp only [hg] at hnone ⊢
      cases hn : fs.newEntry (snapPath fs h) p with
      | err e => simp [hn] at hnone
      | ok t =>
        have ht := (FS.newEntry_ok fs _ _ t hn).2.1
        subst ht
        simp only [hn] at hnone ⊢
        have hr : readAll (fs.cwd ++ [p]) (fs.set (snapPath fs h ++ [p]) (Node.file []))
            = readAll (fs.cwd ++ [p]) fs := by
          unfold readAll
          rw [FS.get_set_other _ _ _ _ hne hsrc_ne]
        rw [hr] at hnone ⊢
        unfold readAll at hnone ⊢
        rw [hg] at hnone ⊢
        cases nd with
        | dir => simp at hnone
        | file c =>
          simp only
          exact ⟨c, rfl, FS.get_set_same _ _ _ hne⟩
  · intro c hc hnd
    unfold copyFile osOpen osCreate
    rw [FS.resolve_name fs p hp hd.1.1, resolveCreate_snapFile fs h p hh hp hd, hc,
      FS.newEntry_eq_ok fs _ p hd.2 hp hnd]
    simp only
    have hr : readAll (fs.cwd ++ [p]) (fs.set (snapPath fs h ++ [p]) (Node.file []))
        = Res.ok c := by
      unfold readAll
      rw [FS.get_set_other _ _ _ _ hne hsrc_ne, hc]
    rw [hr]

theorem snapDirs_copyFile (fs : FS) (h : Str) (dst src : Str) (hd : SnapDirs fs h) :
    SnapDirs (copyFile dst src fs).1 h := by
  unfold SnapDirs Bootstrapped snapPath at hd ⊢
  rw [copyFile_cwd]
  exact ⟨⟨copyFile_preserves_dir _ _ _ _ hd.1.1, copyFile_preserves_dir _ _ _ _ hd.1.2.1,
    copyFile_preserves_dir _ _ _ _ hd.1.2.2⟩, copyFile_preserves_dir _ _ _ _ hd.2⟩

/-- The commit loop over plain file names. -/
theorem copyTracked_plain (h : Str) (hh : validName h) (files : List Str) (fs : FS)
    (hd : SnapDirs fs h) (hplain : ∀ p ∈ files, validName p) :
    (copyTracked (stringsJoin '/' [vcsName, commitsName, h]) files fs).1.cwd = fs.cwd ∧
    SnapDirs (copyTracked (stringsJoin '/' [vcsName, commitsName, h]) files fs).1 h ∧
    (∀ q, (∀ p ∈ files, q ≠ snapPath fs h ++ [p]) →
      (copyTracked (stringsJoin '/' [vcsName, commitsName, h]) files fs).1.get q = fs.get q) ∧
    ((copyTracked (stringsJoin '/' [vcsName, commitsName, h]) files fs).2 = false →
      ∀ p ∈ files, ∃ c, fs.get (fs.cwd ++ [p]) = some (Node.file c) ∧
        (copyTracked (stringsJoin '/' [vcsName, commitsName, h]) files fs).1.get
          (snapPath fs h ++ [p]) = some (Node.file c)) := by
  induction files generalizing fs with
  | nil =>
    exact ⟨rfl, hd, fun _ _ => rfl, fun _ p hp => absurd hp (by simp)⟩
  | cons f rest ih =>
    have hf := hplain f (by simp)
    obtain ⟨c1, c2, c3, _⟩ := copyFile_toSnap fs h f hh hf hd
    unfold copyTracked
    rw [join_commitFile h f hh hf]
    cases hcp : copyFile (stringsJoin '/' [vcsName, commitsName, h, f]) f fs with
    | mk fs1 err =>
      rw [hcp] at c1 c2 c3
      have hd1 : SnapDirs fs1 h := by
        have := snapDirs_copyFile fs h (stringsJoin '/' [vcsName, commitsName, h, f]) f hd
        rw [hcp] at this
        exact this
      cases err with
      | some e =>
        simp only
        refine ⟨c1, hd1, fun q hq => c2 q (hq f (by simp)), fun hfalse => ?_⟩
        simp at hfalse
      | none =>
        simp only
        obtain ⟨i1, i2, i3, i4⟩ := ih fs1 hd1 (fun p hp => hplain p (by simp [hp]))
        simp only at c1 c2 c3
        have hsnap : snapPath fs1 h = snapPath fs h := by unfold snapPath; rw [c1]
        rw [hsnap] at i3 i4
        refine ⟨i1.trans c1, i2, fun q hq => ?_, fun hfalse p hp => ?_⟩
        · rw [i3 q (fun p hp => hq p (by simp [hp])), c2 q (hq f (by simp))]
        · obtain ⟨c, hc1, hc2⟩ := c3 trivial
          by_cases hpr : p ∈ rest
          · obtain ⟨c', h1, h2⟩ := i4 hfalse p hpr
            refine ⟨c', ?_, h2⟩
            rw [c1, c2 _ (length_ne_of _ _ (by simp))] at h1
            exact h1
          · have hpf : p = f := by
              rcases List.mem_cons.1 hp with e | e
              · exact e
              · exact absurd e hpr
            subst hpf
            refine ⟨c, hc1, ?_⟩
            rw [i3 _ (fun x hx => ?_), hc2]
            intro e
            have : p = x := by simpa using e
            exact hpr (this ▸ hx)


/-! ## `commitHandler` -/

theorem commitHandler_eq (prog cmd msg : Str) (rest : List Str) (fs : FS) :
    commitHandler (prog :: cmd :: msg :: rest) fs =
      (match trackedFilesHash fs with
        | none => Result.mk fs [] true
        | some hash =>
          if hash = [] then Result.mk fs ["Nothing to commit."] false
          else
            match osStat (filepathJoin [commitsDir, hash]) fs with
            | Res.err e =>
              if osIsNotExist e then
                match osMkdirAll (filepathJoin [commitsDir, hash]) fs with
                | (fs1, some _) => Result.mk fs1 [] true
                | (fs1, none) =>
                  match listTrackedFiles fs1 with
                  | none => Result.mk fs1 [] true
                  | some files =>
                    match copyTracked (filepathJoin [commitsDir, hash]) files fs1 with
                    | (fs2, true) => Result.mk fs2 [] true
                    | (fs2, false) =>
                      if (writeLog hash msg fs2).fatal then writeLog hash msg fs2
                      else Result.mk (writeLog hash msg fs2).fs
                        ((writeLog hash msg fs2).out ++ [("Changes are committed." : Str)]) false
              else Result.mk fs [] true
            | Res.ok _ => Result.mk fs ["Nothing to commit."] false) := by
  have hlen : (prog :: cmd :: msg :: rest).length > 2 := by simp
  have hget : (prog :: cmd :: msg :: rest).getD 2 [] = msg := rfl
  simp only [commitHandler, hlen, hget, if_true]

theorem committed_ne_nothing :
    ("Changes are committed." : Str) ≠ ("Nothing to commit." : Str) := by decide

theorem listTrackedFiles_congr (fs fs1 : FS) (hcwd : fs1.cwd = fs.cwd)
    (h1 : fs1.get fs.cwd = fs.get fs.cwd)
    (h2 : fs1.get (fs.cwd ++ [vcsName]) = fs.get (fs.cwd ++ [vcsName]))
    (h3 : fs1.get (indexPath fs) = fs.get (indexPath fs))
    (hc : fs.get fs.cwd = some Node.dir) (hv : fs.get (fs.cwd ++ [vcsName]) = some Node.dir) :
    listTrackedFiles fs1 = listTrackedFiles fs := by
  rw [listTrackedFiles_eq, listTrackedFiles_eq,
    osReadFile_vcs fs indexName validName_index hc hv,
    osReadFile_vcs fs1 indexName validName_index (by rw [hcwd, h1]; exact hc)
      (by rw [hcwd, h2]; exact hv), hcwd, h3]

theorem writeLog_cwd (hash message : Str) (fs : FS) : (writeLog hash message fs).fs.cwd = fs.cwd := by
  unfold writeLog
  cases getUserName fs with
  | none => rfl
  | some name =>
    simp only
    split
    · rfl
    · cases h : osAppendFile (filepathJoin [vcsDir, "log.txt"]) _ fs with
      | err e => rfl
      | ok fs1 =>
        rw [join_log] at h
        have := (osAppendFile_vcs_ok fs fs1 logName _ validName_log h).2.2.2
        rw [this]
        rfl

theorem writeLog_frame (hash message : Str) (fs : FS) (q : Path) (hq : q ≠ logPath fs) :
    (writeLog hash message fs).fs.get q = fs.get q := by
  unfold writeLog
  cases getUserName fs with
  | none => rfl
  | some name =>
    simp only
    split
    · rfl
    · cases h : osAppendFile (filepathJoin [vcsDir, "log.txt"]) _ fs with
      | err e => rfl
      | ok fs1 =>
        rw [join_log] at h
        have := (osAppendFile_vcs_ok fs fs1 logName _ validName_log h).2.2.2
        simp only
        rw [this, FS.get_set_other _ _ _ _ (vcsFile_ne_nil _ _) hq]

theorem copyTracked_dirs (commitDir h : Str) (files : List Str) (fs : FS) (hd : SnapDirs fs h) :
    (copyTracked commitDir files fs).1.cwd = fs.cwd ∧
    SnapDirs (copyTracked commitDir files fs).1 h := by
  induction files generalizing fs with
  | nil => exact ⟨rfl, hd⟩
  | cons f rest ih =>
    unfold copyTracked
    have h1 := copyFile_cwd (filepathJoin [commitDir, f]) f fs
    have h2 := snapDirs_copyFile fs h (filepathJoin [commitDir, f]) f hd
    cases hcp : copyFile (filepathJoin [commitDir, f]) f fs with
    | mk fs1 err =>
      rw [hcp] at h1 h2
      cases err with
      | some e => exact ⟨h1, h2⟩
      | none =>
        obtain ⟨i1, i2⟩ := ih fs1 h2
        exact ⟨i1.trans h1, i2⟩

/-- What a commit that ends in "Changes are committed." has done, in a
bootstrapped state. -/
theorem commit_general (prog cmd msg : Str) (rest : List Str) (fs : FS)
    (hboot : Bootstrapped fs)
    (hok : (commitHandler (prog :: cmd :: msg :: rest) fs).fatal = false)
    (hout : ("Changes are committed." : Str) ∈ (commitHandler (prog :: cmd :: msg :: rest) fs).out) :
    ∃ hash files fs2, trackedFilesHash fs = some hash ∧ validName hash ∧
      listTrackedFiles fs = some files ∧
      fs.get (snapPath fs hash) = none ∧
      copyTracked (stringsJoin '/' [vcsName, commitsName, hash]) files
        (fs.set (snapPath fs hash) Node.dir) = (fs2, false) ∧
      SnapDirs (fs.set (snapPath fs hash) Node.dir) hash ∧
      (writeLog hash msg fs2).fatal = false ∧
      commitHandler (prog :: cmd :: msg :: rest) fs =
        Result.mk (writeLog hash msg fs2).fs
          ((writeLog hash msg fs2).out ++ [("Changes are committed." : Str)]) false := by
  rw [commitHandler_eq] at hok hout ⊢
  cases hfiles : listTrackedFiles fs with
  | none => simp [trackedFilesHash, hfiles] at hok
  | some files =>
  have hth := trackedFilesHash_eq fs files hfiles
  cases hh : trackedFilesHash fs with
  | none => simp [hh] at hok
  | some hash =>
    simp only [hh] at hok hout ⊢
    by_cases hempty : hash = []
    · simp [hempty, committed_ne_nothing] at hout
    · simp only [hempty, if_false] at hok hout ⊢
      -- the fingerprint is a hash, hence a plain name
      have hvalid : validName hash := by
        rw [hh] at hth
        by_cases hf : files = []
        · simp [hf] at hth; exact absurd hth hempty
        · rw [if_neg hf] at hth
          cases hs : hashesString fs files with
          | none => simp [hs] at hth
          | some hashes =>
            simp only [hs, Option.some.injEq] at hth
            rw [hth]; exact md5Hex_validName hashes
      rw [join_commitDir hash hvalid, osStat_snap fs hash hvalid hboot] at hok hout ⊢
      cases hg : fs.get (snapPath fs hash) with
      | some nd => simp [hg, committed_ne_nothing] at hout
      | none =>
        simp only [hg, osIsNotExist, decide_True, if_true,
          osMkdirAll_snap fs hash hvalid hboot hg] at hok hout ⊢
        have hsn : snapPath fs hash ≠ [] := by simp
        have hd1 : SnapDirs (fs.set (snapPath fs hash) Node.dir) hash := by
          refine ⟨⟨?_, ?_, ?_⟩, ?_⟩
          · rw [FS.cwd_set, FS.get_set_other _ _ _ _ hsn (length_ne_of _ _ (by simp))]
            exact hboot.1
          · rw [FS.cwd_set, FS.get_set_other _ _ _ _ hsn (length_ne_of _ _ (by simp))]
            exact hboot.2.1
          · rw [FS.cwd_set, FS.get_set_other _ _ _ _ hsn (length_ne_of _ _ (by simp))]
            exact hboot.2.2
          · exact FS.get_set_same _ _ _ hsn
        have hl1 : listTrackedFiles (fs.set (snapPath fs hash) Node.dir) = some files := by
          rw [listTrackedFiles_congr fs (fs.set (snapPath fs hash) Node.dir) rfl
            (FS.get_set_other _ _ _ _ hsn (length_ne_of _ _ (by simp)))
            (FS.get_set_other _ _ _ _ hsn (length_ne_of _ _ (by simp)))
            (FS.get_set_other _ _ _ _ hsn (length_ne_of _ _ (by simp)))
            hboot.1 hboot.2.1]
          exact hfiles
        simp only [hl1] at hok hout ⊢
        cases hcp : copyTracked (stringsJoin '/' [vcsName, commitsName, hash]) files
            (fs.set (snapPath fs hash) Node.dir) with
        | mk fs2 failed =>
          cases failed with
          | true => simp [hcp] at hok
          | false =>
            simp only [hcp] at hok hout ⊢
            by_cases hwf : (writeLog hash msg fs2).fatal = true
            · simp [hwf] at hok
            · simp only [hwf, if_false] at hok hout ⊢
              exact ⟨hash, files, fs2, rfl, hvalid, rfl, hg, hcp, hd1, by simpa using hwf, rfl⟩

/-- What a commit that ends in "Changes are committed." has done, in a
bootstrapped state whose tracked paths are plain file names. -/
theorem commit_plain (prog cmd msg : Str) (rest : List Str) (fs : FS) (files : List Str)
    (hboot : Bootstrapped fs) (hfiles : listTrackedFiles fs = some files)
    (hplain : ∀ p ∈ files, validName p)
    (hok : (commitHandler (prog :: cmd :: msg :: rest) fs).fatal = false)
    (hout : ("Changes are committed." : Str) ∈ (commitHandler (prog :: cmd :: msg :: rest) fs).out) :
    ∃ hash fs2, trackedFilesHash fs = some hash ∧ validName hash ∧
      fs.get (snapPath fs hash) = none ∧ fs2.cwd = fs.cwd ∧ SnapDirs fs2 hash ∧
      (∀ q, q ≠ snapPath fs hash → (∀ p ∈ files, q ≠ snapPath fs hash ++ [p]) →
        fs2.get q = fs.get q) ∧
      (∀ p ∈ files, ∃ c, fs.get (fs.cwd ++ [p]) = some (Node.file c) ∧
        fs2.get (snapPath fs hash ++ [p]) = some (Node.file c)) ∧
      (writeLog hash msg fs2).fatal = false ∧
      commitHandler (prog :: cmd :: msg :: rest) fs =
        Result.mk (writeLog hash msg fs2).fs
          ((writeLog hash msg fs2).out ++ [("Changes are committed." : Str)]) false := by
  obtain ⟨hash, files1, fs2, g1, g2, g3, g4, g5, g6, g7, g8⟩ :=
    commit_general prog cmd msg rest fs hboot hok hout
  rw [hfiles] at g3
  injection g3 with g3
  subst g3
  have hsn : snapPath fs hash ≠ [] := by simp
  obtain ⟨c1, c2, c3, c4⟩ := copyTracked_plain hash g2 files _ g6 hplain
  rw [g5] at c1 c2 c3 c4
  simp only [FS.cwd_set] at c1 c3 c4
  refine ⟨hash, fs2, g1, g2, g4, c1, c2, fun q hq1 hq2 => ?_, fun p hp => ?_, g7, g8⟩
  · rw [c3 q hq2, FS.get_set_other _ _ _ _ hsn hq1]
  · obtain ⟨c, e1, e2⟩ := c4 trivial p hp
    rw [FS.get_set_other _ _ _ _ hsn (length_ne_of _ _ (by simp))] at e1
    exact ⟨c, e1, e2⟩


theorem osReadFile_name (fs : FS) (p : Str) (hp : validName p)
    (hcwd : fs.get fs.cwd = some Node.dir) :
    osReadFile p fs =
      (match fs.get (fs.cwd ++ [p]) with
        | some (Node.file c) => Res.ok c
        | some Node.dir => Res.err Errno.EISDIR
        | none => Res.err Errno.ENOENT) := by
  unfold osReadFile osOpen
  rw [FS.resolve_name fs p hp hcwd]
  cases hg : fs.get (fs.cwd ++ [p]) with
  | none => rfl
  | some nd => simp only [readAll, hg]

theorem snapDirs_writeLog (fs : FS) (h hash message : Str) (hd : SnapDirs fs h) :
    SnapDirs (writeLog hash message fs).fs h := by
  have hne : commitsName ≠ logName := by decide
  unfold SnapDirs Bootstrapped snapPath at hd ⊢
  rw [writeLog_cwd, writeLog_frame _ _ _ _ (vcsFile_ne_cwd _ _),
    writeLog_frame _ _ _ _ (vcsFile_ne_vcs _ _), writeLog_frame _ _ _ _ (vcsFile_ne _ _ _ hne),
    writeLog_frame _ _ _ _ (length_ne_of _ _ (by simp))]
  exact hd

/-- After a commit that ends in "Changes are committed." the commit directory
of the fingerprint exists. -/
theorem commit_creates_snapshot (prog cmd msg : Str) (rest : List Str) (fs : FS)
    (hboot : Bootstrapped fs)
    (hok : (commitHandler (prog :: cmd :: msg :: rest) fs).fatal = false)
    (hout : ("Changes are committed." : Str) ∈ (commitHandler (prog :: cmd :: msg :: rest) fs).out) :
    ∃ hash, trackedFilesHash fs = some hash ∧ validName hash ∧
      osStat (filepathJoin [commitsDir, hash]) fs = Res.err Errno.ENOENT ∧
      osStat (filepathJoin [commitsDir, hash]) (commitHandler (prog :: cmd :: msg :: rest) fs).fs
        = Res.ok Node.dir := by
  obtain ⟨hash, files, fs2, g1, g2, _, g4, g5, g6, _, g8⟩ :=
    commit_general prog cmd msg rest fs hboot hok hout
  have hd2 := (copyTracked_dirs (stringsJoin '/' [vcsName, commitsName, hash]) hash files _ g6)
  rw [g5] at hd2
  have hd3 := snapDirs_writeLog fs2 hash hash msg hd2.2
  refine ⟨hash, g1, g2, ?_, ?_⟩
  · rw [join_commitDir hash g2, osStat_snap fs hash g2 hboot, g4]
  · rw [g8, join_commitDir hash g2, osStat_snap _ hash g2 hd3.1, hd3.2]

theorem getUserName_congr (fs fs1 : FS) (hcwd : fs1.cwd = fs.cwd)
    (h1 : fs1.get fs.cwd = fs.get fs.cwd)
    (h2 : fs1.get (fs.cwd ++ [vcsName]) = fs.get (fs.cwd ++ [vcsName]))
    (h3 : fs1.get (configPath fs) = fs.get (configPath fs))
    (hc : fs.get fs.cwd = some Node.dir) (hv : fs.get (fs.cwd ++ [vcsName]) = some Node.dir) :
    getUserName fs1 = getUserName fs := by
  simp only [getUserName, join_config,
    osReadFile_vcs fs configName validName_config hc hv,
    osReadFile_vcs fs1 configName validName_config (by rw [hcwd, h1]; exact hc)
      (by rw [hcwd, h2]; exact hv), hcwd, h3]

theorem writeLog_named (hash message name : Str) (fs : FS) (hname : getUserName fs = some name)
    (hne : name ≠ []) :
    writeLog hash message fs =
      (match osAppendFile (stringsJoin '/' [vcsName, logName])
          (recordText (LogRecord.mk hash message name)) fs with
        | Res.err _ => Result.mk fs [] true
        | Res.ok fs1 => Result.mk fs1 [] false) := by
  have hlen : ¬ name.length = 0 := by simpa using hne
  unfold writeLog
  rw [hname]
  simp only [hlen, if_false, join_log]
  rfl

/-- C9 (as amended). Log append, in a bootstrapped state whose tracked paths
are plain file names and whose configured username `name` is not empty: a
commit that ends in "Changes are committed." prints nothing else, has created
the commit directory of the fingerprint, which did not exist before, and
leaves a log file that is the log file as it was (empty when there was none)
followed by exactly one record made of the message, `name` and that
fingerprint. -/
theorem commit_appends_log (prog cmd msg : Str) (rest : List Str) (fs : FS) (files : List Str)
    (name : Str) (hboot : Bootstrapped fs) (hfiles : listTrackedFiles fs = some files)
    (hplain : ∀ p ∈ files, validName p) (hname : getUserName fs = some name) (hne : name ≠ [])
    (hok : (commitHandler (prog :: cmd :: msg :: rest) fs).fatal = false)
    (hout : ("Changes are committed." : Str) ∈ (commitHandler (prog :: cmd :: msg :: rest) fs).out) :
    ∃ hash old, trackedFilesHash fs = some hash ∧
      osStat (filepathJoin [commitsDir, hash]) fs = Res.err Errno.ENOENT ∧
      osStat (filepathJoin [commitsDir, hash]) (commitHandler (prog :: cmd :: msg :: rest) fs).fs
        = Res.ok Node.dir ∧
      (osReadFile (filepathJoin [vcsDir, "log.txt"]) fs = Res.ok old ∨
        (osReadFile (filepathJoin [vcsDir, "log.txt"]) fs = Res.err Errno.ENOENT ∧ old = [])) ∧
      osReadFile (filepathJoin [vcsDir, "log.txt"]) (commitHandler (prog :: cmd :: msg :: rest) fs).fs
        = Res.ok (old ++ recordText (LogRecord.mk hash msg name)) ∧
      (commitHandler (prog :: cmd :: msg :: rest) fs).out = [("Changes are committed." : Str)] := by
  obtain ⟨hash, k1, _, k3, k4⟩ := commit_creates_snapshot prog cmd msg rest fs hboot hok hout
  obtain ⟨hash1, fs2, g1, g2, g3, g4, g5, g6, g7, g8, g9⟩ :=
    commit_plain prog cmd msg rest fs files hboot hfiles hplain hok hout
  rw [k1] at g1
  injection g1 with g1
  subst g1
  have hcl : configName ≠ logName := by decide
  -- the state after the copies agrees with the state before on the `vcs` files
  have f1 : fs2.get fs.cwd = fs.get fs.cwd :=
    g6 _ (length_ne_of _ _ (by simp)) (fun p _ => length_ne_of _ _ (by simp))
  have f2 : fs2.get (fs.cwd ++ [vcsName]) = fs.get (fs.cwd ++ [vcsName]) :=
    g6 _ (length_ne_of _ _ (by simp)) (fun p _ => length_ne_of _ _ (by simp))
  have f3 : fs2.get (configPath fs) = fs.get (configPath fs) :=
    g6 _ (length_ne_of _ _ (by simp)) (fun p _ => length_ne_of _ _ (by simp))
  have f4 : fs2.get (logPath fs) = fs.get (logPath fs) :=
    g6 _ (length_ne_of _ _ (by simp)) (fun p _ => length_ne_of _ _ (by simp))
  have hname2 : getUserName fs2 = some name := by
    rw [getUserName_congr fs fs2 g4 f1 f2 f3 hboot.1 hboot.2.1]; exact hname
  -- the log write
  have hw : ∃ fs3, osAppendFile (stringsJoin '/' [vcsName, logName])
      (recordText (LogRecord.mk hash msg name)) fs2 = Res.ok fs3 ∧
      writeLog hash msg fs2 = Result.mk fs3 [] false := by
    rw [writeLog_named hash msg name fs2 hname2 hne] at g8 ⊢
    cases happ : osAppendFile (stringsJoin '/' [vcsName, logName])
        (recordText (LogRecord.mk hash msg name)) fs2 with
    | err e => simp [happ] at g8
    | ok fs3 => exact ⟨fs3, rfl, rfl⟩
  obtain ⟨fs3, happ, hwl⟩ := hw
  obtain ⟨a1, a2, a3, a4⟩ := osAppendFile_vcs_ok fs2 fs3 logName _ validName_log happ
  rw [g4] at a3 a4
  have hcontent : fs2.content (logPath fs) = fs.content (logPath fs) := by
    unfold FS.content; rw [f4]
  refine ⟨hash, fs.content (logPath fs), k1, k3, k4, ?_, ?_, ?_⟩
  · rw [join_log, osReadFile_vcs fs logName validName_log hboot.1 hboot.2.1]
    have hnd : fs.get (fs.cwd ++ [vcsName, logName]) ≠ some Node.dir := by
      rw [← f4]; exact a3
    unfold FS.content
    cases hg : fs.get (fs.cwd ++ [vcsName, logName]) with
    | none => right; simp [hg]
    | some nd =>
      cases nd with
      | dir => exact absurd hg hnd
      | file c => left; simp [hg]
  · rw [g9, hwl, a4, join_log]
    have hl : logPath fs ≠ [] := vcsFile_ne_nil _ _
    rw [osReadFile_vcs _ logName validName_log
      (by rw [FS.cwd_set, g4, FS.get_set_other _ _ _ _ hl (vcsFile_ne_cwd _ _), f1]; exact hboot.1)
      (by rw [FS.cwd_set, g4, FS.get_set_other _ _ _ _ hl (vcsFile_ne_vcs _ _), f2]
          exact hboot.2.1),
      FS.cwd_set, g4, FS.get_set_same _ _ _ hl, hcontent]
  · rw [g9, hwl]
    rfl

/-- C9, witness: the first commit of the example state writes the first
record of the log. -/
theorem commit_appends_log_witness :
    ∃ hash old, trackedFilesHash readyFs = some hash ∧
      osStat (filepathJoin [commitsDir, hash]) readyFs = Res.err Errno.ENOENT ∧
      osStat (filepathJoin [commitsDir, hash]) (commitHandler ["svcs", "commit", "first"] readyFs).fs
        = Res.ok Node.dir ∧
      (osReadFile (filepathJoin [vcsDir, "log.txt"]) readyFs = Res.ok old ∨
        (osReadFile (filepathJoin [vcsDir, "log.txt"]) readyFs = Res.err Errno.ENOENT ∧
          old = [])) ∧
      osReadFile (filepathJoin [vcsDir, "log.txt"])
          (commitHandler ["svcs", "commit", "first"] readyFs).fs
        = Res.ok (old ++ recordText (LogRecord.mk hash "first" "alice")) ∧
      (commitHandler ["svcs", "commit", "first"] readyFs).out = [("Changes are committed." : Str)] :=
  commit_appends_log "svcs" "commit" "first" [] readyFs ["a.txt"] "alice" (by decide) (by decide)
    (by decide) (by decide) (by decide) (by decide) (by decide)

/-- C9, counterexample: with the tracked path `../../log.txt` and the username
`alice` configured, a commit ends in "Changes are committed." and the log
file it leaves does not start with the record that was in the log before. -/
theorem commit_appends_log_counterexample :
    getUserName traversalFs = some ("alice" : Str) ∧
    listTrackedFiles traversalFs = some [("../../log.txt" : Str)] ∧
    (commitHandler ["svcs", "commit", "m"] traversalFs).fatal = false ∧
    (commitHandler ["svcs", "commit", "m"] traversalFs).out = [("Changes are committed." : Str)] ∧
    osReadFile (filepathJoin [vcsDir, "log.txt"]) traversalFs
      = Res.ok ("zero\nAuthor: bob\ncommit 0\n\n" : Str) ∧
    osReadFile (filepathJoin [vcsDir, "log.txt"]) (commitHandler ["svcs", "commit", "m"] traversalFs).fs
      = Res.ok ("evil" ++ "m\nAuthor: alice\ncommit 918251d2cd3de9a26dc274832d824706\n\n" : Str) := by
  decide


/-! ## Round trip -/

theorem lookupNode_some_mem (q : Path) (n : Node) (l : List (Path × Node))
    (h : lookupNode q l = some n) : ∃ e ∈ l, e.1 = q := by
  induction l with
  | nil => simp [lookupNode] at h
  | cons e rest ih =>
    obtain ⟨k, v⟩ := e
    unfold lookupNode at h
    by_cases hk : k = q
    · exact ⟨(k, v), by simp, hk⟩
    · rw [if_neg hk] at h
      obtain ⟨e, he, heq⟩ := ih h
      exact ⟨e, by simp [he], heq⟩

theorem FS.get_some_mem (fs : FS) (q : Path) (n : Node) (hq : q ≠ [])
    (h : fs.get q = some n) : ∃ e ∈ fs.nodes, e.1 = q := by
  unfold FS.get at h
  rw [if_neg hq] at h
  exact lookupNode_some_mem q n fs.nodes h

theorem osReadDir_snap (fs : FS) (h : Str) (hh : validName h) (hd : SnapDirs fs h) :
    ∃ entries, osReadDir (stringsJoin '/' [vcsName, commitsName, h]) fs = Res.ok entries ∧
      (∀ n ∈ entries, validName n) ∧
      (∀ p nd, validName p → fs.get (snapPath fs h ++ [p]) = some nd → p ∈ entries) := by
  have hr := resolve_snap fs h hh hd.1
  rw [hd.2] at hr
  simp only at hr
  have hread : ∃ entries, osReadDir (stringsJoin '/' [vcsName, commitsName, h]) fs
      = Res.ok entries := by
    unfold osReadDir
    rw [hr]
    simp only [hd.2]
    exact ⟨_, rfl⟩
  obtain ⟨entries, he⟩ := hread
  refine ⟨entries, he, osReadDir_valid _ fs entries he, fun p nd hp hg => ?_⟩
  rw [osReadDir_mem _ fs entries he p]
  exact ⟨snapPath fs h, hr, hp, FS.get_some_mem fs _ nd (by simp) hg⟩

/-- One copy of the checkout loop, for an entry that is a regular file. -/
theorem copyFile_fromSnap (t : FS) (h n c : Str) (hh : validName h) (hn : validName n)
    (hd : SnapDirs t h) (hsrc : t.get (snapPath t h ++ [n]) = some (Node.file c))
    (hdst : t.get (t.cwd ++ [n]) ≠ some Node.dir) :
    (copyFile n (stringsJoin '/' [vcsName, commitsName, h, n]) t).1.get (t.cwd ++ [n])
      = some (Node.file c) := by
  have hne : t.cwd ++ [n] ≠ [] := by simp
  have hdiff : snapPath t h ++ [n] ≠ t.cwd ++ [n] := length_ne_of _ _ (by simp)
  unfold copyFile osOpen osCreate
  rw [resolve_snapFile t h n hh hn hd, hsrc, FS.resolveCreate_name t n hn,
    FS.newEntry_eq_ok t _ n hd.1.1 hn hdst]
  simp only
  have hr : readAll (snapPath t h ++ [n]) (t.set (t.cwd ++ [n]) (Node.file [])) = Res.ok c := by
    unfold readAll
    rw [FS.get_set_other _ _ _ _ hne hdiff, hsrc]
  rw [hr]
  exact FS.get_set_same _ _ _ hne

theorem restoreFiles_preserves_dir (commitDir : Str) (files : List Str) (fs : FS) (q : Path)
    (hq : fs.get q = some Node.dir) :
    (restoreFiles commitDir files fs).get q = some Node.dir := by
  induction files generalizing fs with
  | nil => exact hq
  | cons n rest ih =>
    rw [restoreFiles_cons]
    exact ih _ (copyFile_preserves_dir _ _ _ _ hq)

/-- The checkout loop restores every entry that is a regular file. -/
theorem restoreFiles_restores (h : Str) (hh : validName h) (entries : List Str) (t : FS)
    (hd : SnapDirs t h) (hv : ∀ n ∈ entries, validName n) (p c : Str) (hp : validName p)
    (hsrc : t.get (snapPath t h ++ [p]) = some (Node.file c))
    (hdst : t.get (t.cwd ++ [p]) ≠ some Node.dir)
    (hcase : p ∈ entries ∨ t.get (t.cwd ++ [p]) = some (Node.file c)) :
    (restoreFiles (stringsJoin '/' [vcsName, commitsName, h]) entries t).get (t.cwd ++ [p])
      = some (Node.file c) := by
  induction entries generalizing t with
  | nil =>
    rcases hcase with hc | hc
    · simp at hc
    · exact hc
  | cons n rest ih =>
    have hnv := hv n (by simp)
    rw [restoreFiles_cons, join_commitFile h n hh hnv]
    have hd1 := snapDirs_copyFile t h n (stringsJoin '/' [vcsName, commitsName, h, n]) hd
    have hcwd1 := copyFile_cwd n (stringsJoin '/' [vcsName, commitsName, h, n]) t
    have hsnap1 : snapPath (copyFile n (stringsJoin '/' [vcsName, commitsName, h, n]) t).1 h
        = snapPath t h := by unfold snapPath; rw [hcwd1]
    have hsrc1 : (copyFile n (stringsJoin '/' [vcsName, commitsName, h, n]) t).1.get
        (snapPath t h ++ [p]) = some (Node.file c) := by
      rw [copyFile_name_frame n _ t _ hnv (length_ne_of _ _ (by simp))]
      exact hsrc
    have key := ih (copyFile n (stringsJoin '/' [vcsName, commitsName, h, n]) t).1 hd1
      (fun x hx => hv x (by simp [hx])) (by rw [hsnap1]; exact hsrc1)
    rw [hcwd1] at key
    by_cases hnp : n = p
    · subst hnp
      have hres := copyFile_fromSnap t h n c hh hnv hd hsrc hdst
      exact key (by rw [hres]; simp) (Or.inr hres)
    · have hsame : (copyFile n (stringsJoin '/' [vcsName, commitsName, h, n]) t).1.get
          (t.cwd ++ [p]) = t.get (t.cwd ++ [p]) := by
        apply copyFile_name_frame n _ t _ hnv
        intro e
        have : p = n := by simpa using e
        exact hnp this.symm
      apply key (by rw [hsame]; exact hdst)
      rcases hcase with hc | hc
      · rcases List.mem_cons.1 hc with e | e
        · exact absurd e.symm hnp
        · exact Or.inl e
      · right; rw [hsame]; exact hc

theorem lookupNode_filter (p q : Path) (l : List (Path × Node)) :
    lookupNode q (l.filter (fun e => decide (e.1 ≠ p)))
      = if q = p then none else lookupNode q l := by
  induction l with
  | nil => simp [lookupNode]
  | cons e rest ih =>
    obtain ⟨k, v⟩ := e
    by_cases hk : k = p
    · subst hk
      simp only [List.filter_cons, ne_eq, not_true_eq_false, decide_False, Bool.false_eq_true,
        if_false, ih]
      by_cases hq : q = k
      · simp [hq]
      · have : ¬ k = q := fun e => hq e.symm
        simp [hq, lookupNode, this]
    · simp only [List.filter_cons, ne_eq, hk, not_false_eq_true, decide_True, if_true]
      unfold lookupNode
      by_cases hkq : k = q
      · subst hkq
        simp [hk]
      · simp only [hkq, if_false, ih]

theorem FS.get_remove (fs : FS) (p q : Path) (hp : p ≠ []) :
    (fs.remove p).get q = if q = p then none else fs.get q := by
  unfold FS.get FS.remove
  by_cases hq : q = []
  · subst hq
    have : ¬ ([] : Path) = p := fun e => hp e.symm
    simp [this]
  · simp only [hq, if_false, lookupNode_filter]

theorem snapshotted_set (orig s : FS) (h : Str) (files : List Str) (p data : Str)
    (hs : Snapshotted orig s h files) (hnd : s.get (s.cwd ++ [p]) ≠ some Node.dir) :
    Snapshotted orig (s.set (s.cwd ++ [p]) (Node.file data)) h files := by
  have hne : s.cwd ++ [p] ≠ [] := by simp
  obtain ⟨h1, h2, h3⟩ := hs
  have hvcs : s.cwd ++ [vcsName] ≠ s.cwd ++ [p] := by
    intro e
    rw [← e] at hnd
    exact hnd h2.1.2.1
  refine ⟨h1, ⟨⟨?_, ?_, ?_⟩, ?_⟩, fun x hx => ?_⟩
  · rw [FS.cwd_set, FS.get_set_other _ _ _ _ hne (length_ne_of _ _ (by simp))]
    exact h2.1.1
  · rw [FS.cwd_set, FS.get_set_other _ _ _ _ hne hvcs]
    exact h2.1.2.1
  · rw [FS.cwd_set, FS.get_set_other _ _ _ _ hne (length_ne_of _ _ (by simp))]
    exact h2.1.2.2
  · unfold snapPath
    rw [FS.cwd_set, FS.get_set_other _ _ _ _ hne (length_ne_of _ _ (by simp))]
    exact h2.2
  · obtain ⟨c, e1, e2, e3⟩ := h3 x hx
    refine ⟨c, e1, ?_, ?_⟩
    · unfold snapPath
      rw [FS.cwd_set, FS.get_set_other _ _ _ _ hne (length_ne_of _ _ (by simp))]
      exact e2
    · rw [FS.cwd_set, FS.get_set _ _ _ _ hne]
      split
      · simp
      · exact e3

theorem snapshotted_remove (orig s : FS) (h : Str) (files : List Str) (p : Str)
    (hs : Snapshotted orig s h files) (hnd : s.get (s.cwd ++ [p]) ≠ some Node.dir) :
    Snapshotted orig (s.remove (s.cwd ++ [p])) h files := by
  have hne : s.cwd ++ [p] ≠ [] := by simp
  obtain ⟨h1, h2, h3⟩ := hs
  have hcw : (s.remove (s.cwd ++ [p])).cwd = s.cwd := rfl
  have hvcs : s.cwd ++ [vcsName] ≠ s.cwd ++ [p] := by
    intro e
    rw [← e] at hnd
    exact hnd h2.1.2.1
  have other : ∀ q, q ≠ s.cwd ++ [p] → (s.remove (s.cwd ++ [p])).get q = s.get q := by
    intro q hq
    rw [FS.get_remove _ _ _ hne, if_neg hq]
  refine ⟨h1, ⟨⟨?_, ?_, ?_⟩, ?_⟩, fun x hx => ?_⟩
  · rw [hcw, other _ (length_ne_of _ _ (by simp))]
    exact h2.1.1
  · rw [hcw, other _ hvcs]
    exact h2.1.2.1
  · rw [hcw, other _ (length_ne_of _ _ (by simp))]
    exact h2.1.2.2
  · unfold snapPath
    rw [hcw, other _ (length_ne_of _ _ (by simp))]
    exact h2.2
  · obtain ⟨c, e1, e2, e3⟩ := h3 x hx
    refine ⟨c, e1, ?_, ?_⟩
    · unfold snapPath
      rw [hcw, other _ (length_ne_of _ _ (by simp))]
      exact e2
    · rw [hcw, FS.get_remove _ _ _ hne]
      split
      · simp
      · exact e3

theorem snapshotted_modifyFile (orig s : FS) (h : Str) (files : List Str) (m : Edit)
    (hs : Snapshotted orig s h files) (hplain : ∀ p ∈ files, validName p)
    (hm : m.target ∈ files) : Snapshotted orig (modifyFile s m) h files := by
  cases m with
  | write path data =>
    have hv := hplain path hm
    simp only [modifyFile, osWriteFile]
    rw [FS.resolveCreate_name s path hv]
    cases hn : s.newEntry s.cwd path with
    | err e => exact hs
    | ok t =>
      obtain ⟨_, ht, hnd, _⟩ := FS.newEntry_ok s _ _ t hn
      subst ht
      exact snapshotted_set orig s h files path data hs hnd
  | delete path =>
    have hv := hplain path hm
    simp only [modifyFile, osUnlink]
    rw [FS.resolve_name s path hv hs.2.1.1.1]
    cases hg : s.get (s.cwd ++ [path]) with
    | none => exact hs
    | some nd =>
      cases nd with
      | dir => simp only [hg]; exact hs
      | file c =>
        simp only [hg]
        exact snapshotted_remove orig s h files path hs (by rw [hg]; simp)

theorem snapshotted_modifyFiles (orig : FS) (h : Str) (files : List Str)
    (mods : List Edit) (s : FS) (hs : Snapshotted orig s h files)
    (hplain : ∀ p ∈ files, validName p) (hm : ∀ m ∈ mods, m.target ∈ files) :
    Snapshotted orig (modifyFiles s mods) h files := by
  induction mods generalizing s with
  | nil => exact hs
  | cons m rest ih =>
    have e : modifyFiles s (m :: rest) = modifyFiles (modifyFile s m) rest := rfl
    rw [e]
    exact ih _ (snapshotted_modifyFile orig s h files m hs hplain (hm m (by simp)))
      (fun x hx => hm x (by simp [hx]))

/-- A commit of plain file names that ends in "Changes are committed." leaves
a snapshot of the tracked files. -/
theorem commit_snapshotted (prog cmd msg : Str) (rest : List Str) (fs : FS) (files : List Str)
    (hboot : Bootstrapped fs) (hfiles : listTrackedFiles fs = some files)
    (hplain : ∀ p ∈ files, validName p)
    (hok : (commitHandler (prog :: cmd :: msg :: rest) fs).fatal = false)
    (hout : ("Changes are committed." : Str) ∈ (commitHandler (prog :: cmd :: msg :: rest) fs).out) :
    ∃ hash, trackedFilesHash fs = some hash ∧ validName hash ∧
      fs.get (snapPath fs hash) = none ∧
      Snapshotted fs (commitHandler (prog :: cmd :: msg :: rest) fs).fs hash files := by
  obtain ⟨hash, fs2, g1, g2, g3, g4, g5, g6, g7, g8, g9⟩ :=
    commit_plain prog cmd msg rest fs files hboot hfiles hplain hok hout
  refine ⟨hash, g1, g2, g3, ?_⟩
  rw [g9]
  simp only
  have hcwd : (writeLog hash msg fs2).fs.cwd = fs.cwd := by rw [writeLog_cwd, g4]
  refine ⟨hcwd, snapDirs_writeLog fs2 hash hash msg g5, fun p hp => ?_⟩
  obtain ⟨c, e1, e2⟩ := g7 p hp
  refine ⟨c, e1, ?_, ?_⟩
  · unfold snapPath
    rw [hcwd, writeLog_frame _ _ _ _ (by rw [logPath, g4]; exact length_ne_of _ _ (by simp))]
    exact e2
  · rw [hcwd, writeLog_frame _ _ _ _ (by rw [logPath, g4]; exact length_ne_of _ _ (by simp)),
      g6 _ (length_ne_of _ _ (by simp)) (fun x _ => length_ne_of _ _ (by simp)), e1]
    simp

/-- Checkout of the fingerprint in a state that holds its snapshot. -/
theorem checkout_snapshotted (prog cmd : Str) (rest : List Str) (orig s : FS) (h : Str)
    (files : List Str) (hh : validName h) (hplain : ∀ p ∈ files, validName p)
    (hs : Snapshotted orig s h files) (horig : orig.get orig.cwd = some Node.dir) :
    (checkoutHandler (prog :: cmd :: h :: rest) s).fatal = false ∧
    (checkoutHandler (prog :: cmd :: h :: rest) s).out = ["Switched to commit " ++ h ++ "."] ∧
    ∀ p ∈ files, ∃ c, osReadFile p orig = Res.ok c ∧
      osReadFile p (checkoutHandler (prog :: cmd :: h :: rest) s).fs = Res.ok c := by
  obtain ⟨h1, h2, h3⟩ := hs
  have hlen : (prog :: cmd :: h :: rest).length > 2 := by simp
  have hget : (prog :: cmd :: h :: rest).getD 2 [] = h := rfl
  obtain ⟨entries, he, hev, hmem⟩ := osReadDir_snap s h hh h2
  have hstat : osStat (filepathJoin [commitsDir, (prog :: cmd :: h :: rest).getD 2 []]) s
      = Res.ok Node.dir := by
    rw [hget, join_commitDir h hh, osStat_snap s h hh h2.1, h2.2]
  have hdir : osReadDir (filepathJoin [commitsDir, (prog :: cmd :: h :: rest).getD 2 []]) s
      = Res.ok entries := by
    rw [hget, join_commitDir h hh]; exact he
  rw [checkoutHandler_ok _ s Node.dir entries hlen hstat hdir, hget, join_commitDir h hh]
  refine ⟨rfl, rfl, fun p hp => ?_⟩
  obtain ⟨c, e1, e2, e3⟩ := h3 p hp
  have hv := hplain p hp
  refine ⟨c, ?_, ?_⟩
  · rw [osReadFile_name orig p hv horig, e1]
  · have hcwd' := restoreFiles_preserves_dir (stringsJoin '/' [vcsName, commitsName, h])
      entries s s.cwd h2.1.1
    have hres := restoreFiles_restores h hh entries s h2 hev p c hv e2 e3
      (Or.inl (hmem p _ hv e2))
    show osReadFile p (restoreFiles (stringsJoin '/' [vcsName, commitsName, h]) entries s)
      = Res.ok c
    rw [osReadFile_name _ p hv (by rw [restoreFiles_cwd]; exact hcwd'), restoreFiles_cwd, hres]


/-- C1 (as amended). Round trip for plain file names: in a bootstrapped
state whose tracked paths are all plain file names (single names of entries of
the working directory), after a commit that ended in "Changes are committed."
(creating the commit directory of the fingerprint, which did not exist), and
after any later overwriting or deletion of working copies of tracked files,
checkout of that fingerprint ends in "Switched to commit <fingerprint>." and
every tracked path reads exactly the bytes it had at commit time. -/
theorem commit_checkout_roundtrip (prog cmd msg : Str) (rest : List Str) (prog2 cmd2 : Str)
    (rest2 : List Str) (fs : FS) (files : List Str) (mods : List Edit)
    (hboot : Bootstrapped fs) (hfiles : listTrackedFiles fs = some files)
    (hplain : ∀ p ∈ files, validName p)
    (hok : (commitHandler (prog :: cmd :: msg :: rest) fs).fatal = false)
    (hout : ("Changes are committed." : Str) ∈ (commitHandler (prog :: cmd :: msg :: rest) fs).out)
    (hmods : ∀ m ∈ mods, m.target ∈ files) :
    ∃ hash, trackedFilesHash fs = some hash ∧
      osStat (filepathJoin [commitsDir, hash]) fs = Res.err Errno.ENOENT ∧
      (checkoutHandler (prog2 :: cmd2 :: hash :: rest2)
        (modifyFiles (commitHandler (prog :: cmd :: msg :: rest) fs).fs mods)).fatal = false ∧
      (checkoutHandler (prog2 :: cmd2 :: hash :: rest2)
        (modifyFiles (commitHandler (prog :: cmd :: msg :: rest) fs).fs mods)).out
          = ["Switched to commit " ++ hash ++ "."] ∧
      ∀ p ∈ files, ∃ c, osReadFile p fs = Res.ok c ∧
        osReadFile p (checkoutHandler (prog2 :: cmd2 :: hash :: rest2)
          (modifyFiles (commitHandler (prog :: cmd :: msg :: rest) fs).fs mods)).fs = Res.ok c := by
  obtain ⟨hash, g1, g2, g3, g4⟩ :=
    commit_snapshotted prog cmd msg rest fs files hboot hfiles hplain hok hout
  have hs := snapshotted_modifyFiles fs hash files mods _ g4 hplain hmods
  obtain ⟨c1, c2, c3⟩ :=
    checkout_snapshotted prog2 cmd2 rest2 fs _ hash files g2 hplain hs hboot.1
  refine ⟨hash, g1, ?_, c1, c2, c3⟩
  rw [join_commitDir hash g2, osStat_snap fs hash g2 hboot, g3]

/-- C1, witness: in the example state `a.txt` (content `hello`) is committed,
then overwritten with `world` and deleted; checkout restores `hello`. -/
theorem commit_checkout_roundtrip_witness :
    ∃ hash, trackedFilesHash readyFs = some hash ∧
      osStat (filepathJoin [commitsDir, hash]) readyFs = Res.err Errno.ENOENT ∧
      (checkoutHandler ["svcs", "checkout", hash]
        (modifyFiles (commitHandler ["svcs", "commit", "first"] readyFs).fs
          [Edit.write "a.txt" "world", Edit.delete "a.txt"])).fatal = false ∧
      (checkoutHandler ["svcs", "checkout", hash]
        (modifyFiles (commitHandler ["svcs", "commit", "first"] readyFs).fs
          [Edit.write "a.txt" "world", Edit.delete "a.txt"])).out
            = ["Switched to commit " ++ hash ++ "."] ∧
      ∀ p ∈ [("a.txt" : Str)], ∃ c, osReadFile p readyFs = Res.ok c ∧
        osReadFile p (checkoutHandler ["svcs", "checkout", hash]
          (modifyFiles (commitHandler ["svcs", "commit", "first"] readyFs).fs
            [Edit.write "a.txt" "world", Edit.delete "a.txt"])).fs = Res.ok c :=
  commit_checkout_roundtrip "svcs" "commit" "first" [] "svcs" "checkout" [] readyFs ["a.txt"]
    [Edit.write "a.txt" "world", Edit.delete "a.txt"]
    (by decide) (by decide) (by decide) (by decide) (by decide) (by decide)

/-- C1, counterexample: the tracked path `../x.txt` (content `hello`) is
committed with "Changes are committed.", the file is overwritten with `world`,
and checkout of the fingerprint, which ends in "Switched to commit ...", leaves
`world` in it: the bytes of commit time are not restored. -/
theorem commit_checkout_roundtrip_counterexample :
    listTrackedFiles outsideFs = some [("../x.txt" : Str)] ∧
    osReadFile "../x.txt" outsideFs = Res.ok ("hello" : Str) ∧
    trackedFilesHash outsideFs = some ("69a329523ce1ec88bf63061863d9cb14" : Str) ∧
    (commitHandler ["svcs", "commit", "first"] outsideFs).fatal = false ∧
    (commitHandler ["svcs", "commit", "first"] outsideFs).out
      = [("Changes are committed." : Str)] ∧
    (checkoutHandler ["svcs", "checkout", "69a329523ce1ec88bf63061863d9cb14"]
      (modifyFiles (commitHandler ["svcs", "commit", "first"] outsideFs).fs
        [Edit.write "../x.txt" "world"])).out
      = [("Switched to commit 69a329523ce1ec88bf63061863d9cb14." : Str)] ∧
    osReadFile "../x.txt"
      (checkoutHandler ["svcs", "checkout", "69a329523ce1ec88bf63061863d9cb14"]
        (modifyFiles (commitHandler ["svcs", "commit", "first"] outsideFs).fs
          [Edit.write "../x.txt" "world"])).fs = Res.ok ("world" : Str) := by
  decide

/-- C2, the code at the failing input: no username is configured and
`a.txt` is tracked; the commit creates the commit directory with the copy of
`a.txt`, prints the request for the identity and then
"Changes are committed.", and writes no log entry; once a username is
configured, the same commit reports "Nothing to commit." and the log stays
empty. -/
theorem commit_without_identity :
    getUserName trackedFs = some [] ∧
    listTrackedFiles trackedFs = some [("a.txt" : Str)] ∧
    trackedFilesHash trackedFs = some ("69a329523ce1ec88bf63061863d9cb14" : Str) ∧
    osStat (filepathJoin [commitsDir, "69a329523ce1ec88bf63061863d9cb14"]) trackedFs
      = Res.err Errno.ENOENT ∧
    (commitHandler ["svcs", "commit", "first"] trackedFs).fatal = false ∧
    (commitHandler ["svcs", "commit", "first"] trackedFs).out
      = [("Please, tell me who you are." : Str), "Changes are committed."] ∧
    osStat (filepathJoin [commitsDir, "69a329523ce1ec88bf63061863d9cb14"])
      (commitHandler ["svcs", "commit", "first"] trackedFs).fs = Res.ok Node.dir ∧
    osReadFile "vcs/commits/69a329523ce1ec88bf63061863d9cb14/a.txt"
      (commitHandler ["svcs", "commit", "first"] trackedFs).fs = Res.ok ("hello" : Str) ∧
    listLogs (commitHandler ["svcs", "commit", "first"] trackedFs).fs = some [] ∧
    (commitHandler ["svcs", "commit", "first"]
      (configHandler ["svcs", "config", "alice"]
        (commitHandler ["svcs", "commit", "first"] trackedFs).fs).fs).out
      = [("Nothing to commit." : Str)] ∧
    listLogs (commitHandler ["svcs", "commit", "first"]
      (configHandler ["svcs", "config", "alice"]
        (commitHandler ["svcs", "commit", "first"] trackedFs).fs).fs).fs = some [] := by
  decide


/-! ## Checks of the model -/

/-- The MD5 function of the model on the test suite of RFC 1321. -/
theorem md5_test_suite :
    md5Hex "" = ("d41d8cd98f00b204e9800998ecf8427e" : Str) ∧
    md5Hex "a" = ("0cc175b9c0f1b6a831c399e269772661" : Str) ∧
    md5Hex "abc" = ("900150983cd24fb0d6963f7d28e17f72" : Str) ∧
    md5Hex "message digest" = ("f96b697d7cb7938d525a2f31aaf161d0" : Str) ∧
    md5Hex "abcdefghijklmnopqrstuvwxyz" = ("c3fcd3d76192e4007dfb496cca67e13b" : Str) ∧
    md5Hex "ABCDEFGHIJKLMNOPQRSTUVWXYZabcdefghijklmnopqrstuvwxyz0123456789"
      = ("d174ab98d277d9f5a5611c2c9f419d9f" : Str) ∧
    md5Hex "12345678901234567890123456789012345678901234567890123456789012345678901234567890"
      = ("57edf4a22be3c955ac49da2e2107b67a" : Str) := by
  decide

/-- Go `filepath.Clean` and `filepath.Join` of the model on sample paths. -/
theorem filepath_samples :
    filepathClean "a//b/./c/.." = ("a/b" : Str) ∧
    filepathClean "../../x" = ("../../x" : Str) ∧
    filepathClean "/../a" = ("/a" : Str) ∧
    filepathClean "" = ("." : Str) ∧
    filepathJoin [".", ""] = ("." : Str) ∧
    filepathJoin [".", "/etc/hosts"] = ("etc/hosts" : Str) ∧
    filepathJoin ["vcs/commits/0", "../../log.txt"] = ("vcs/log.txt" : Str) ∧
    filepathJoin ["", ""] = ("" : Str) := by
  decide

theorem mkdirWalk_cwd (cs : List Str) (cur : Path) (fs fs1 : FS) (e : Option Errno)
    (h : mkdirWalk cs cur fs = (fs1, e)) : fs1.cwd = fs.cwd := by
  induction cs generalizing cur fs with
  | nil =>
    simp only [mkdirWalk, Prod.mk.injEq] at h
    rw [← h.1]
  | cons c cs ih =>
    unfold mkdirWalk at h
    cases hc : fs.get cur with
    | none => simp only [hc, Prod.mk.injEq] at h; rw [← h.1]
    | some nd =>
      cases nd with
      | file x => simp only [hc, Prod.mk.injEq] at h; rw [← h.1]
      | dir =>
        simp only [hc] at h
        by_cases h1 : c = [] ∨ c = ['.']
        · rw [if_pos h1] at h
          exact ih _ _ h
        · rw [if_neg h1] at h
          by_cases h2 : c = ['.', '.']
          · rw [if_pos h2] at h
            exact ih _ _ h
          · rw [if_neg h2] at h
            cases hg : fs.get (cur ++ [c]) with
            | none =>
              simp only [hg] at h
              have := ih _ _ h
              rw [this]; rfl
            | some nd2 =>
              cases nd2 with
              | file x => simp only [hg, Prod.mk.injEq] at h; rw [← h.1]
              | dir =>
                simp only [hg] at h
                exact ih _ _ h

theorem mkdir_dot_vcs (fs fs1 : FS) (h : osMkdirAll vcsDir fs = (fs1, none)) :
    fs1.cwd = fs.cwd ∧ fs1.get fs.cwd = some Node.dir ∧
      fs1.get (fs.cwd ++ [vcsName]) = some Node.dir := by
  have hsplit : stringsSplit '/' vcsDir = [dotName, vcsName] := by decide
  have hne : vcsDir ≠ [] := by decide
  have hhead : ¬ vcsDir.head? = some '/' := by decide
  have hdot : dotName = [] ∨ dotName = ['.'] := by decide
  have hv1 : ¬ (vcsName = [] ∨ vcsName = ['.']) := by decide
  have hv2 : ¬ vcsName = ['.', '.'] := by decide
  have hvn : fs.cwd ++ [vcsName] ≠ [] := by simp
  unfold osMkdirAll FS.start at h
  rw [if_neg hne, if_neg hhead, hsplit] at h
  unfold mkdirWalk at h
  cases hc : fs.get fs.cwd with
  | none => simp [hc] at h
  | some nd =>
    cases nd with
    | file c => simp [hc] at h
    | dir =>
      simp only [hc, hdot, if_true] at h
      unfold mkdirWalk at h
      simp only [hc, hv1, hv2, if_false] at h
      cases hg : fs.get (fs.cwd ++ [vcsName]) with
      | none =>
        simp only [hg, mkdirWalk, Prod.mk.injEq, and_true] at h
        subst h
        exact ⟨rfl, by rw [FS.get_set_other _ _ _ _ hvn (length_ne_of _ _ (by simp))]; exact hc,
          FS.get_set_same _ _ _ hvn⟩
      | some nd2 =>
        cases nd2 with
        | file c => simp [hg] at h
        | dir =>
          simp only [hg, mkdirWalk, Prod.mk.injEq, and_true] at h
          subst h
          exact ⟨rfl, hc, hg⟩

theorem mkdir_dot_vcs_commits (fs fs1 : FS) (hcwd : fs.get fs.cwd = some Node.dir)
    (hvcs : fs.get (fs.cwd ++ [vcsName]) = some Node.dir)
    (h : osMkdirAll commitsDir fs = (fs1, none)) : Bootstrapped fs1 := by
  have hsplit : stringsSplit '/' commitsDir = [dotName, vcsName, commitsName] := by decide
  have hne : commitsDir ≠ [] := by decide
  have hhead : ¬ commitsDir.head? = some '/' := by decide
  have hdot : dotName = [] ∨ dotName = ['.'] := by decide
  have hv1 : ¬ (vcsName = [] ∨ vcsName = ['.']) := by decide
  have hv2 : ¬ vcsName = ['.', '.'] := by decide
  have hc1 : ¬ (commitsName = [] ∨ commitsName = ['.']) := by decide
  have hc2 : ¬ commitsName = ['.', '.'] := by decide
  have hcn : fs.cwd ++ [vcsName] ++ [commitsName] ≠ [] := by simp
  unfold osMkdirAll FS.start at h
  rw [if_neg hne, if_neg hhead, hsplit] at h
  unfold mkdirWalk at h
  simp only [hcwd, hdot, if_true] at h
  unfold mkdirWalk at h
  simp only [hcwd, hvcs, hv1, hv2, if_false] at h
  unfold mkdirWalk at h
  simp only [hvcs, hc1, hc2, if_false] at h
  have happ : fs.cwd ++ [vcsName] ++ [commitsName] = fs.cwd ++ [vcsName, commitsName] := by simp
  rw [happ] at h hcn
  cases hg : fs.get (fs.cwd ++ [vcsName, commitsName]) with
  | none =>
    simp only [hg, mkdirWalk, Prod.mk.injEq, and_true] at h
    subst h
    refine ⟨?_, ?_, ?_⟩
    · rw [FS.cwd_set, FS.get_set_other _ _ _ _ hcn (length_ne_of _ _ (by simp))]; exact hcwd
    · rw [FS.cwd_set, FS.get_set_other _ _ _ _ hcn (length_ne_of _ _ (by simp))]; exact hvcs
    · exact FS.get_set_same fs _ Node.dir hcn
  | some nd2 =>
    cases nd2 with
    | file c => simp [hg] at h
    | dir =>
      simp only [hg, mkdirWalk, Prod.mk.injEq, and_true] at h
      subst h
      exact ⟨hcwd, hvcs, hg⟩

/-- The function `main` runs a handler only in a bootstrapped state: it either
ends the process before any command is looked up, or runs the handler of the
command in a state in which the working directory, `./vcs` and
`./vcs/commits` are directories. -/
theorem main_bootstraps (args : List Str) (fs : FS) :
    (main args fs).fatal = true ∨
    ∃ fs2, Bootstrapped fs2 ∧ fs2.cwd = fs.cwd ∧
      main args fs = getCommand (if args.length > 1 then args.getD 1 [] else helpCmd) args fs2 := by
  unfold main
  cases h1 : osMkdirAll vcsDir fs with
  | mk fs1 e1 =>
    cases e1 with
    | some e => left; rfl
    | none =>
      obtain ⟨a1, a2, a3⟩ := mkdir_dot_vcs fs fs1 h1
      simp only
      cases h2 : osMkdirAll commitsDir fs1 with
      | mk fs2 e2 =>
        cases e2 with
        | some e => left; rfl
        | none =>
          right
          have hb := mkdir_dot_vcs_commits fs1 fs2 (by rw [a1]; exact a2) (by rw [a1]; exact a3) h2
          refine ⟨fs2, hb, ?_, rfl⟩
          have : fs2.cwd = fs1.cwd := by
            unfold osMkdirAll at h2
            have hne : commitsDir ≠ [] := by decide
            rw [if_neg hne] at h2
            exact mkdirWalk_cwd _ _ _ _ _ h2
          rw [this, a1]

end VCS
